import Mathlib

/-!
A verification development for the `gowild` wildcard-matching library.

Strings are modelled as lists of bytes (`List Nat`, every element < 256 in
practice), matching Go's view of both `string` and `[]byte` as byte
sequences.  The two matching engines are shallow embeddings of

  * `MatchInternal` — the ASCII-only case-sensitive engine
    (the engine behind the public `Match` entry point), together with its
    byte-level character-class `NewCharClass`;
  * `MatchInternalFold` — the Unicode-aware engine
    (`internal/wildcard/match_fold.go`, the engine behind the public
    `MatchFold` entry point), together with its rune-level character-class
    `NewcharClassFold`.

Each engine's main loop is embedded as a pure step function `stepA`/`stepF`
on an explicit cursor/checkpoint state, iterated by a fuelled runner.  The
fuel bound `Fuel p s = (|s|+2)^2 * (|p|+1)` is proved sufficient for every
input (the termination theorem for claim C10), so `Match`/`MatchFold`
returning `some r` is exactly the Go function returning `r`.
-/

set_option maxHeartbeats 1000000

namespace Gowild

/-- Result of a match call: `ok b` models the Go return `(b, nil)`, and
`err` models `(false, ErrBadPattern)`. -/
inductive MRes where
  | ok : Bool → MRes
  | err : MRes
deriving DecidableEq, Repr

/-- Byte indexing `x[i]`.  Every use in the embedded engines is guarded by a
bounds check, exactly as in the source, so the default value is never
observed. -/
def byteAt (l : List Nat) (i : Nat) : Nat := l.getD i 0

/-- `IsWildcardByte` from the ASCII engine: the byte-value lookup table for
`*`, `?`, `.`, `[`, `\`. -/
def IsWildcardByte (b : Nat) : Bool :=
  b == 42 || b == 63 || b == 46 || b == 91 || b == 92

/-- Continuation-byte acceptance for the second byte of a three-byte UTF-8
sequence (Go `utf8` accept ranges: `0xE0` demands `A0..BF`, `0xED` demands
`80..9F`, the rest `80..BF`). -/
def utf8Accept3 (b0 b1 : Nat) : Bool :=
  if b0 = 0xE0 then decide (0xA0 ≤ b1 ∧ b1 ≤ 0xBF)
  else if b0 = 0xED then decide (0x80 ≤ b1 ∧ b1 ≤ 0x9F)
  else decide (0x80 ≤ b1 ∧ b1 ≤ 0xBF)

/-- Continuation-byte acceptance for the second byte of a four-byte UTF-8
sequence (`0xF0` demands `90..BF`, `0xF4` demands `80..8F`, the rest
`80..BF`). -/
def utf8Accept4 (b0 b1 : Nat) : Bool :=
  if b0 = 0xF0 then decide (0x90 ≤ b1 ∧ b1 ≤ 0xBF)
  else if b0 = 0xF4 then decide (0x80 ≤ b1 ∧ b1 ≤ 0x8F)
  else decide (0x80 ≤ b1 ∧ b1 ≤ 0xBF)

/-- Model of Go `utf8.DecodeRune` and `utf8.DecodeRuneInString` (the two
functions implement the identical algorithm, differing only in the input
type): returns the decoded codepoint and its byte width, `(0xFFFD, 1)` for
an invalid encoding and `(0xFFFD, 0)` for empty input. -/
def utf8DecodeRune (l : List Nat) : Nat × Nat :=
  match l with
  | [] => (0xFFFD, 0)
  | b0 :: rest =>
    if b0 < 0x80 then (b0, 1)
    else if b0 < 0xC2 then (0xFFFD, 1)
    else if b0 < 0xE0 then
      match rest with
      | b1 :: _ =>
        if 0x80 ≤ b1 ∧ b1 ≤ 0xBF then ((b0 - 0xC0) * 64 + (b1 - 0x80), 2)
        else (0xFFFD, 1)
      | [] => (0xFFFD, 1)
    else if b0 < 0xF0 then
      match rest with
      | b1 :: b2 :: _ =>
        if utf8Accept3 b0 b1 ∧ 0x80 ≤ b2 ∧ b2 ≤ 0xBF then
          ((b0 - 0xE0) * 4096 + (b1 - 0x80) * 64 + (b2 - 0x80), 3)
        else (0xFFFD, 1)
      | _ => (0xFFFD, 1)
    else if b0 < 0xF5 then
      match rest with
      | b1 :: b2 :: b3 :: _ =>
        if utf8Accept4 b0 b1 ∧ (0x80 ≤ b2 ∧ b2 ≤ 0xBF) ∧ (0x80 ≤ b3 ∧ b3 ≤ 0xBF) then
          ((b0 - 0xF0) * 262144 + (b1 - 0x80) * 4096 + (b2 - 0x80) * 64 + (b3 - 0x80), 4)
        else (0xFFFD, 1)
      | _ => (0xFFFD, 1)
    else (0xFFFD, 1)

/-- Model of Go `unicode.SimpleFold` restricted to the codepoints any claim
in this development evaluates it at: correct for all codepoints below
`0x100` and for the fold-orbit companions `K` (U+212A), `ſ` (U+017F) and
`Å` (U+212B); the identity elsewhere.  On the covered codepoints the value
agrees with Go: the next-larger codepoint of the simple-case-folding orbit,
wrapping around. -/
def simpleFold (r : Nat) : Nat :=
  if r = 0x6B then 0x212A            -- k -> KELVIN SIGN
  else if r = 0x212A then 0x4B       -- KELVIN SIGN -> K
  else if r = 0x73 then 0x17F        -- s -> LATIN SMALL LETTER LONG S
  else if r = 0x17F then 0x53        -- long s -> S
  else if r = 0xE5 then 0x212B       -- aa-ring -> ANGSTROM SIGN
  else if r = 0x212B then 0xC5       -- ANGSTROM SIGN -> Aa-ring
  else if 0x41 ≤ r ∧ r ≤ 0x5A then r + 32          -- A..Z -> a..z
  else if 0x61 ≤ r ∧ r ≤ 0x7A then r - 32          -- a..z -> A..Z
  else if 0xC0 ≤ r ∧ r ≤ 0xDE ∧ r ≠ 0xD7 then r + 32   -- Latin-1 uppercase
  else if 0xE0 ≤ r ∧ r ≤ 0xFE ∧ r ≠ 0xF7 then r - 32   -- Latin-1 lowercase
  else r

/-- The cycle of Go's `for f := SimpleFold(r2); f != r2; f = SimpleFold(f)`
loop.  The fuel `4` is enough for every `simpleFold` orbit (the longest
orbit, both in the model and in Unicode, has three elements). -/
def foldOrbitSearch (r1 r2 : Nat) : Nat → Nat → Bool
  | _, 0 => false
  | f, fuel + 1 =>
    if f = r2 then false
    else if f = r1 then true
    else foldOrbitSearch r1 r2 (simpleFold f) fuel

/-- Model of `equalFoldRune`: case-insensitive rune comparison by cycling
the `unicode.SimpleFold` orbit of the smaller codepoint. -/
def equalFoldRune (a b : Nat) : Bool :=
  if a = b then true
  else foldOrbitSearch (max a b) (min a b) (simpleFold (min a b)) 4

/-- Model of Go `strings.Index` and `bytes.Index` (the identical
first-occurrence substring search on bytes): `some i` is the byte index of
the first occurrence of `needle`, `none` models the `-1` result. -/
def indexOf (hay needle : List Nat) : Option Nat :=
  if needle.isPrefixOf hay then some 0
  else
    match hay with
    | [] => none
    | _ :: t => (indexOf t needle).map (· + 1)

/-- `utf8.DecodeRuneInString` (string view). -/
def decodeRuneInString (l : List Nat) : Nat × Nat := utf8DecodeRune l

/-- `utf8.DecodeRune` (byte-slice view). -/
def decodeRuneSlice (l : List Nat) : Nat × Nat := utf8DecodeRune l

/-- `strings.Index` (string view). -/
def stringsIndex (hay needle : List Nat) : Option Nat := indexOf hay needle

/-- `bytes.Index` (byte-slice view). -/
def bytesIndex (hay needle : List Nat) : Option Nat := indexOf hay needle

/-- The index search selected by the `isString` type test of the engines:
`strings.Index` on the string path, `bytes.Index` on the byte-slice path. -/
def pickIndex (isString : Bool) : List Nat → List Nat → Option Nat :=
  if isString then stringsIndex else bytesIndex

/-- The rune decoder selected by the `isString` type test of the engines:
`utf8.DecodeRuneInString` on the string path, `utf8.DecodeRune` on the
byte-slice path. -/
def pickDecode (isString : Bool) : List Nat → Nat × Nat :=
  if isString then decodeRuneInString else decodeRuneSlice

/-- The engine state of one matching invocation (shared by both engines,
whose Go sources declare the same local variables): the two cursors, the
star checkpoint `(starIdx, sTmpIdx)`, the question checkpoint
`(questionIdx, qTmpIdx)` with its run bookkeeping `qCount`/`qMatched`
(`none` models the `-1` sentinels), and the extracted star literal
(`starLit = some lit` models `hasStarLiteral = true`). -/
structure MState where
  pIdx : Nat
  sIdx : Nat
  star : Option (Nat × Nat)
  quest : Option (Nat × Nat)
  qCount : Nat
  qMatched : Nat
  starLit : Option (List Nat)
deriving DecidableEq, Repr

/-- One loop iteration either returns from the function or continues with a
new state. -/
inductive Step (σ : Type) where
  | done : MRes → Step σ
  | next : σ → Step σ
deriving DecidableEq, Repr

/-- The length of the leading run of `*`/`?` bytes of a list. -/
def wildRun : List Nat → Nat
  | [] => 0
  | b :: t => if b = 42 ∨ b = 63 then wildRun t + 1 else 0

/-- The index just past the run of consecutive `*`/`?` bytes starting at
`i` (the skip loops of Case 1 and Case 3, identical in both engines). -/
def skipWild (p : List Nat) (i : Nat) : Nat := i + wildRun (p.drop i)

/-- The length of the leading run of `?` bytes of a list. -/
def qRun : List Nat → Nat
  | [] => 0
  | b :: t => if b = 63 then qRun t + 1 else 0

/-- The number of consecutive `?` bytes starting at `i` (the count loop of
Case 2, identical in both engines). -/
def countQ (p : List Nat) (i : Nat) : Nat := qRun (p.drop i)

/-! ## The ASCII-only case-sensitive engine

Embeds the `MatchInternal` engine and its byte-level character-class
parser `NewCharClass` (the engine behind the public `Match`). -/

namespace AsciiEngine

/-- `charRange`: an ASCII byte range inside a character class. -/
structure CharRange where
  Start : Nat
  End : Nat
deriving DecidableEq, Repr

/-- `charClass`: a parsed ASCII character class. -/
structure CharClass where
  Negated : Bool
  Chars : List Nat
  Ranges : List CharRange
deriving DecidableEq, Repr

/-- `charClass.matches`: byte membership, literals first, then ranges,
then the negation flip. -/
def CharClass.matches (cc : CharClass) (c : Nat) : Bool :=
  let m0 := cc.Chars.contains c
  let m := if m0 then m0 else cc.Ranges.any fun r => decide (r.Start ≤ c) && decide (c ≤ r.End)
  if cc.Negated then !m else m

/-- The range-detection tail of one parser iteration: `c1` has just been
read and `pi1` points after it.  A `-` not followed by `]` starts a range
(whose end may itself be escaped and whose bounds must satisfy
`start <= end`), otherwise `c1` is a single literal member.  Returns the
updated class and the position at which the body loop continues; `none`
models `ErrBadPattern`. -/
def parseClassTail (p : List Nat) (pi1 c1 : Nat) (cc : CharClass) :
    Option (CharClass × Nat) :=
  if pi1 < p.length ∧ byteAt p pi1 = 45 ∧ pi1 + 1 < p.length then
    if byteAt p (pi1 + 1) ≠ 93 then
      -- a range: skip the `-`; the end character may be escaped
      if pi1 + 1 ≥ p.length then none
      else if byteAt p (pi1 + 1) = 92 then
        if pi1 + 2 < p.length then
          if c1 > byteAt p (pi1 + 2) then none
          else some ({ cc with Ranges := cc.Ranges ++ [⟨c1, byteAt p (pi1 + 2)⟩] }, pi1 + 3)
        else none
      else
        if c1 > byteAt p (pi1 + 1) then none
        else some ({ cc with Ranges := cc.Ranges ++ [⟨c1, byteAt p (pi1 + 1)⟩] }, pi1 + 2)
    else some ({ cc with Chars := cc.Chars ++ [c1] }, pi1)
  else some ({ cc with Chars := cc.Chars ++ [c1] }, pi1)

/-- The body loop of the ASCII `NewCharClass` parser: one iteration reads a
member character (handling `\`-escapes) and lets `parseClassTail` check
for a range.  `none` models `ErrBadPattern`; `some (cc, pi)` models a parse
that found the closing `]`, with `pi` just past it.  The fuel argument
only bounds the number of loop iterations: every iteration advances `pi`,
so the fuel `p.length + 1` supplied by `NewCharClass` can never run out
(`parseClassBody_fuel_ext` below makes this precise). -/
def parseClassBody (p : List Nat) : Nat → Nat → Bool → CharClass → Option (CharClass × Nat)
  | 0, _, _, _ => none
  | fuel + 1, pi, firstChar, cc =>
    if pi < p.length then
      if byteAt p pi = 93 ∧ firstChar = false then some (cc, pi + 1)
      else if byteAt p pi = 92 then
        if pi + 1 < p.length then
          match parseClassTail p (pi + 2) (byteAt p (pi + 1)) cc with
          | none => none
          | some (cc', pi') => parseClassBody p fuel pi' false cc'
        else none
      else
        match parseClassTail p (pi + 1) (byteAt p pi) cc with
        | none => none
        | some (cc', pi') => parseClassBody p fuel pi' false cc'
    else none

/-- `NewCharClass` of the ASCII engine: requires `[` at `pi`, consumes an
optional negation marker `^`/`!`, then parses the body. -/
def NewCharClass (p : List Nat) (pi : Nat) : Option (CharClass × Nat) :=
  if pi ≥ p.length ∨ byteAt p pi ≠ 91 then none
  else if pi + 1 ≥ p.length then none
  else if byteAt p (pi + 1) = 94 ∨ byteAt p (pi + 1) = 33 then
    if pi + 2 ≥ p.length then none
    else parseClassBody p (p.length + 1) (pi + 2) true ⟨true, [], []⟩
  else parseClassBody p (p.length + 1) (pi + 1) true ⟨false, [], []⟩

/-- Star backtracking (the second half of Case 4): clear the question
state, reset the pattern cursor to just after the star, and advance the
star's subject anchor — by an index search for the literal following the
star when one was extracted, else by a single byte. -/
def starBacktrackA (isString : Bool) (s : List Nat) (st : MState) : Step MState :=
  match st.star with
  | some (si, stv) =>
    if stv < s.length then
      match st.starLit with
      | some lit =>
        match pickIndex isString (s.drop (stv + 1)) lit with
        | none => .done (.ok false)
        | some n =>
          .next { st with pIdx := si, sIdx := stv + n + 1, star := some (si, stv + n + 1),
                          quest := none, qCount := 0, qMatched := 0 }
      | none =>
        .next { st with pIdx := si, sIdx := stv + 1, star := some (si, stv + 1),
                        quest := none, qCount := 0, qMatched := 0 }
    else .done (.ok false)
  | none => .done (.ok false)

/-- Case 4 of the loop: first question-checkpoint replay (one more byte,
while budget remains), then star backtracking. -/
def backtrackA (isString : Bool) (s : List Nat) (st : MState) : Step MState :=
  match st.quest with
  | some (qi, qt) =>
    if qt < s.length ∧ st.qMatched < st.qCount then
      .next { st with pIdx := qi, sIdx := qt + 1, quest := some (qi, qt + 1),
                      qMatched := st.qMatched + 1 }
    else starBacktrackA isString s st
  | none => starBacktrackA isString s st

/-- One iteration of the `MatchInternal` loop. -/
def stepA (isString : Bool) (p s : List Nat) (st : MState) : Step MState :=
  -- success: both pattern and string fully consumed
  if st.pIdx ≥ p.length ∧ st.sIdx ≥ s.length then .done (.ok true)
  -- Case 1: star wildcard; collapse the `*`/`?` run, record the star
  -- checkpoint and extract the following literal (if any)
  else if st.pIdx < p.length ∧ byteAt p st.pIdx = 42 then
    .next { st with pIdx := skipWild p st.pIdx,
                    star := some (skipWild p st.pIdx, st.sIdx),
                    starLit :=
                      if skipWild p st.pIdx < p.length ∧
                          IsWildcardByte (byteAt p (skipWild p st.pIdx)) = false then
                        some ((p.drop (skipWild p st.pIdx)).takeWhile fun b => !IsWildcardByte b)
                      else none }
  -- Case 2: question run; record the question checkpoint, try zero first
  else if st.pIdx < p.length ∧ byteAt p st.pIdx = 63 then
    .next { st with pIdx := st.pIdx + countQ p st.pIdx,
                    quest := some (st.pIdx + countQ p st.pIdx, st.sIdx),
                    qCount := countQ p st.pIdx, qMatched := 0 }
  -- Case 3: subject exhausted — trailing wildcards may still match empty
  else if st.sIdx = s.length then
    if skipWild p st.pIdx = p.length then .done (.ok true)
    else backtrackA isString s { st with pIdx := skipWild p st.pIdx }
  -- Case 3: escape sequence
  else if st.pIdx < p.length ∧ byteAt p st.pIdx = 92 then
    if st.pIdx + 1 ≥ p.length then
      -- trailing backslash matches a literal backslash byte
      if st.sIdx < s.length ∧ byteAt s st.sIdx = 92 then
        .next { st with pIdx := st.pIdx + 1, sIdx := st.sIdx + 1 }
      else backtrackA isString s st
    else
      if st.sIdx < s.length ∧ byteAt p (st.pIdx + 1) = byteAt s st.sIdx then
        .next { st with pIdx := st.pIdx + 2, sIdx := st.sIdx + 1 }
      else backtrackA isString s st
  -- Case 3: `.` matches any single byte except newline
  else if st.pIdx < p.length ∧ byteAt p st.pIdx = 46 then
    if st.sIdx ≥ s.length then backtrackA isString s st
    else if byteAt s st.sIdx = 10 then backtrackA isString s st
    else .next { st with pIdx := st.pIdx + 1, sIdx := st.sIdx + 1 }
  -- Case 3: character class
  else if st.pIdx < p.length ∧ byteAt p st.pIdx = 91 then
    match NewCharClass p st.pIdx with
    | none => .done .err
    | some (cc, np) =>
      if st.sIdx ≥ s.length then backtrackA isString s st
      else if cc.matches (byteAt s st.sIdx) then
        .next { st with pIdx := np, sIdx := st.sIdx + 1 }
      else backtrackA isString s st
  -- Case 3: standard byte match
  else if st.pIdx < p.length ∧ st.sIdx < s.length then
    if byteAt p st.pIdx = byteAt s st.sIdx then
      .next { st with pIdx := st.pIdx + 1, sIdx := st.sIdx + 1 }
    else backtrackA isString s st
  -- pattern exhausted but subject is not: backtrack
  else backtrackA isString s st

/-- The fuelled iteration of the loop; `none` means the fuel ran out (the
termination theorem shows the fuel bound below never does). -/
def runA (isString : Bool) (p s : List Nat) : Nat → MState → Option MRes
  | 0, _ => none
  | fuel + 1, st =>
    match stepA isString p s st with
    | .done r => some r
    | .next st' => runA isString p s fuel st'

end AsciiEngine

/-- The fuel bound: one more than the maximal value of the termination
measure, `(|s|+2)² · (|p|+1)`. -/
def Fuel (p s : List Nat) : Nat := (s.length + 2) * (s.length + 2) * (p.length + 1)

/-- The starting state of an engine invocation. -/
def initState : MState := ⟨0, 0, none, none, 0, 0, none⟩

/-- `MatchInternal`: the ASCII-only case-sensitive engine.  `isString`
records which of the two representations (`string` or `[]byte`) the generic
Go function was instantiated at. -/
def MatchInternal (isString : Bool) (p s : List Nat) : Option MRes :=
  AsciiEngine.runA isString p s (Fuel p s) initState

/-- The public case-sensitive entry point `Match` (string view). -/
def Match (p s : List Nat) : Option MRes := MatchInternal true p s

/-! ## The Unicode-aware engine

Embeds `MatchInternalFold` and its rune-level character-class parser
`NewcharClassFold` from `internal/wildcard/match_fold.go` (the engine
behind the public `MatchFold`). -/

namespace FoldEngine

/-- `charRangeFold`: a codepoint range inside a character class. -/
structure CharRange where
  Start : Nat
  End : Nat
deriving DecidableEq, Repr

/-- `charClassFold`: a parsed character class. -/
structure CharClass where
  Negated : Bool
  Chars : List Nat
  Ranges : List CharRange
deriving DecidableEq, Repr

/-- `charClassFold.MatchesWithFold`: codepoint membership, literals first,
then ranges, then the negation flip.  Character classes are always
case-sensitive: the `fold` parameter is accepted but never consulted,
exactly as in the source. -/
def CharClass.MatchesWithFold (cc : CharClass) (char : Nat) (fold : Bool) : Bool :=
  let m0 := cc.Chars.contains char
  let m := if m0 then m0 else cc.Ranges.any fun r => decide (r.Start ≤ char) && decide (char ≤ r.End)
  if cc.Negated then !m else m

/-- Reading the end codepoint of a range (possibly escaped), validating
`start <= end` and recording the range; `pi2` points at the end codepoint,
just past the `-`.  Returns the updated class and the position at which
the body loop continues; `none` models `ErrBadPattern`. -/
def parseClassRange (p : List Nat) (pi2 c1 : Nat) (cc : CharClass) :
    Option (CharClass × Nat) :=
  if (utf8DecodeRune (p.drop pi2)).1 = 92 then
    if pi2 + (utf8DecodeRune (p.drop pi2)).2 < p.length then
      if c1 > (utf8DecodeRune (p.drop (pi2 + (utf8DecodeRune (p.drop pi2)).2))).1 then none
      else some ({ cc with Ranges := cc.Ranges ++
          [⟨c1, (utf8DecodeRune (p.drop (pi2 + (utf8DecodeRune (p.drop pi2)).2))).1⟩] },
        pi2 + (utf8DecodeRune (p.drop pi2)).2 +
          (utf8DecodeRune (p.drop (pi2 + (utf8DecodeRune (p.drop pi2)).2))).2)
    else none
  else if c1 > (utf8DecodeRune (p.drop pi2)).1 then none
  else some ({ cc with Ranges := cc.Ranges ++ [⟨c1, (utf8DecodeRune (p.drop pi2)).1⟩] },
    pi2 + (utf8DecodeRune (p.drop pi2)).2)

/-- The range-detection tail of one `NewcharClassFold` iteration: `c1` has
just been decoded and `pi1` points after it; a `-` not followed by `]`
starts a range, otherwise `c1` is a single literal member.  Returns the
updated class and the position at which the body loop continues. -/
def parseClassTail (p : List Nat) (pi1 c1 : Nat) (cc : CharClass) :
    Option (CharClass × Nat) :=
  if pi1 < p.length then
    if (utf8DecodeRune (p.drop pi1)).1 = 45 ∧
        pi1 + (utf8DecodeRune (p.drop pi1)).2 < p.length then
      if (utf8DecodeRune (p.drop (pi1 + (utf8DecodeRune (p.drop pi1)).2))).1 ≠ 93 then
        -- a range: skip the `-`; the end codepoint may be escaped
        if pi1 + (utf8DecodeRune (p.drop pi1)).2 ≥ p.length then none
        else parseClassRange p (pi1 + (utf8DecodeRune (p.drop pi1)).2) c1 cc
      else some ({ cc with Chars := cc.Chars ++ [c1] }, pi1)
    else some ({ cc with Chars := cc.Chars ++ [c1] }, pi1)
  else some ({ cc with Chars := cc.Chars ++ [c1] }, pi1)

/-- The body loop of `NewcharClassFold`: one iteration decodes a member
codepoint (handling `\`-escapes) and lets `parseClassTail` check for a
range.  `none` models `ErrBadPattern`.  As in the ASCII parser, the fuel
only bounds the number of loop iterations and the fuel `p.length + 1`
supplied by `NewcharClassFold` can never run out. -/
def parseClassBody (p : List Nat) : Nat → Nat → Bool → CharClass → Option (CharClass × Nat)
  | 0, _, _, _ => none
  | fuel + 1, pi, firstChar, cc =>
    if pi < p.length then
      if (utf8DecodeRune (p.drop pi)).1 = 93 ∧ firstChar = false then
        some (cc, pi + (utf8DecodeRune (p.drop pi)).2)
      else if (utf8DecodeRune (p.drop pi)).1 = 92 then
        if pi + (utf8DecodeRune (p.drop pi)).2 < p.length then
          match parseClassTail p
              (pi + (utf8DecodeRune (p.drop pi)).2 +
                (utf8DecodeRune (p.drop (pi + (utf8DecodeRune (p.drop pi)).2))).2)
              (utf8DecodeRune (p.drop (pi + (utf8DecodeRune (p.drop pi)).2))).1 cc with
          | none => none
          | some (cc', pi') => parseClassBody p fuel pi' false cc'
        else none
      else
        match parseClassTail p (pi + (utf8DecodeRune (p.drop pi)).2)
            (utf8DecodeRune (p.drop pi)).1 cc with
        | none => none
        | some (cc', pi') => parseClassBody p fuel pi' false cc'
    else none

/-- `NewcharClassFold`: requires `[` at `pi`, consumes an optional negation
marker `^`/`!`, then parses the body; all reads go through the UTF-8
decoder. -/
def NewcharClassFold (p : List Nat) (pi : Nat) : Option (CharClass × Nat) :=
  if pi ≥ p.length then none
  else
    let rw := utf8DecodeRune (p.drop pi)
    if rw.1 ≠ 91 then none
    else if pi + rw.2 ≥ p.length then none
    else
      let rn := utf8DecodeRune (p.drop (pi + rw.2))
      if rn.1 = 94 ∨ rn.1 = 33 then
        if pi + rw.2 + rn.2 ≥ p.length then none
        else parseClassBody p (p.length + 1) (pi + rw.2 + rn.2) true ⟨true, [], []⟩
      else parseClassBody p (p.length + 1) (pi + rw.2) true ⟨false, [], []⟩

/-- Star backtracking (the second half of Case 4): clear the question
state, reset the pattern cursor to just after the star, and advance the
star's subject anchor — by an index search for the literal following the
star when one was extracted (case-sensitive mode only), else by a single
byte. -/
def starBacktrackF (isString : Bool) (s : List Nat) (st : MState) : Step MState :=
  match st.star with
  | some (si, stv) =>
    if stv < s.length then
      match st.starLit with
      | some lit =>
        match pickIndex isString (s.drop (stv + 1)) lit with
        | none => .done (.ok false)
        | some n =>
          .next { st with pIdx := si, sIdx := stv + n + 1, star := some (si, stv + n + 1),
                          quest := none, qCount := 0, qMatched := 0 }
      | none =>
        .next { st with pIdx := si, sIdx := stv + 1, star := some (si, stv + 1),
                        quest := none, qCount := 0, qMatched := 0 }
    else .done (.ok false)
  | none => .done (.ok false)

/-- Case 4 of the loop: first question-checkpoint replay (one more decoded
codepoint, while budget remains), then star backtracking. -/
def backtrackF (isString : Bool) (s : List Nat) (st : MState) : Step MState :=
  match st.quest with
  | some (qi, qt) =>
    if qt < s.length ∧ st.qMatched < st.qCount then
      .next { st with pIdx := qi, sIdx := qt + (pickDecode isString (s.drop qt)).2,
                      quest := some (qi, qt + (pickDecode isString (s.drop qt)).2),
                      qMatched := st.qMatched + 1 }
    else starBacktrackF isString s st
  | none => starBacktrackF isString s st

/-- One iteration of the `MatchInternalFold` loop. -/
def stepF (isString : Bool) (fold : Bool) (p s : List Nat) (st : MState) : Step MState :=
  -- success: both pattern and string fully consumed
  if st.pIdx ≥ p.length ∧ st.sIdx ≥ s.length then .done (.ok true)
  -- Case 1: star wildcard; collapse the `*`/`?` run, record the star
  -- checkpoint; the literal is extracted only in case-sensitive mode
  else if st.pIdx < p.length ∧ byteAt p st.pIdx = 42 then
    .next { st with pIdx := skipWild p st.pIdx,
                    star := some (skipWild p st.pIdx, st.sIdx),
                    starLit :=
                      if fold = false ∧ skipWild p st.pIdx < p.length ∧
                          IsWildcardByte (byteAt p (skipWild p st.pIdx)) = false then
                        some ((p.drop (skipWild p st.pIdx)).takeWhile fun b => !IsWildcardByte b)
                      else none }
  -- Case 2: question run; record the question checkpoint, try zero first
  else if st.pIdx < p.length ∧ byteAt p st.pIdx = 63 then
    .next { st with pIdx := st.pIdx + countQ p st.pIdx,
                    quest := some (st.pIdx + countQ p st.pIdx, st.sIdx),
                    qCount := countQ p st.pIdx, qMatched := 0 }
  -- Case 3: subject exhausted — trailing wildcards may still match empty
  else if st.sIdx = s.length then
    if skipWild p st.pIdx = p.length then .done (.ok true)
    else backtrackF isString s { st with pIdx := skipWild p st.pIdx }
  -- Case 3: escape sequence
  else if st.pIdx < p.length ∧ byteAt p st.pIdx = 92 then
    if st.pIdx + 1 ≥ p.length then
      -- trailing backslash matches a literal backslash codepoint
      if st.sIdx < s.length then
        if (pickDecode isString (s.drop st.sIdx)).1 = 92 then
          .next { st with pIdx := st.pIdx + 1,
                          sIdx := st.sIdx + (pickDecode isString (s.drop st.sIdx)).2 }
        else backtrackF isString s st
      else backtrackF isString s st
    else
      if st.sIdx < s.length then
        -- the escaped pattern character is the raw next byte
        if (if fold then equalFoldRune (byteAt p (st.pIdx + 1)) (pickDecode isString (s.drop st.sIdx)).1
            else byteAt p (st.pIdx + 1) == (pickDecode isString (s.drop st.sIdx)).1) then
          .next { st with pIdx := st.pIdx + 2,
                          sIdx := st.sIdx + (pickDecode isString (s.drop st.sIdx)).2 }
        else backtrackF isString s st
      else backtrackF isString s st
  -- Case 3: `.` matches any single codepoint except newline
  else if st.pIdx < p.length ∧ byteAt p st.pIdx = 46 then
    if st.sIdx ≥ s.length then backtrackF isString s st
    else
      if (pickDecode isString (s.drop st.sIdx)).1 = 10 then backtrackF isString s st
      else .next { st with pIdx := st.pIdx + 1,
                           sIdx := st.sIdx + (pickDecode isString (s.drop st.sIdx)).2 }
  -- Case 3: character class (parse errors abort the match)
  else if st.pIdx < p.length ∧ byteAt p st.pIdx = 91 then
    match NewcharClassFold p st.pIdx with
    | none => .done .err
    | some (cc, np) =>
      if st.sIdx ≥ s.length then backtrackF isString s st
      else
        if cc.MatchesWithFold (pickDecode isString (s.drop st.sIdx)).1 fold then
          .next { st with pIdx := np,
                          sIdx := st.sIdx + (pickDecode isString (s.drop st.sIdx)).2 }
        else backtrackF isString s st
  -- Case 3: standard codepoint match
  else if st.pIdx < p.length ∧ st.sIdx < s.length then
    if (if fold then
          equalFoldRune (pickDecode isString (p.drop st.pIdx)).1 (pickDecode isString (s.drop st.sIdx)).1
        else (pickDecode isString (p.drop st.pIdx)).1 == (pickDecode isString (s.drop st.sIdx)).1) then
      .next { st with pIdx := st.pIdx + (pickDecode isString (p.drop st.pIdx)).2,
                      sIdx := st.sIdx + (pickDecode isString (s.drop st.sIdx)).2 }
    else backtrackF isString s st
  -- pattern exhausted but subject is not: backtrack
  else backtrackF isString s st

/-- The fuelled iteration of the `MatchInternalFold` loop. -/
def runF (isString : Bool) (fold : Bool) (p s : List Nat) : Nat → MState → Option MRes
  | 0, _ => none
  | fuel + 1, st =>
    match stepF isString fold p s st with
    | .done r => some r
    | .next st' => runF isString fold p s fuel st'

end FoldEngine

/-- `MatchInternalFold`: the Unicode-aware engine with the case-folding
switch. -/
def MatchInternalFold (isString : Bool) (p s : List Nat) (fold : Bool) : Option MRes :=
  FoldEngine.runF isString fold p s (Fuel p s) initState

/-- The public case-insensitive entry point `MatchFold` (string view),
which calls `MatchInternalFold(pattern, s, true)`. -/
def MatchFold (p s : List Nat) : Option MRes := MatchInternalFold true p s true

/-! ## Termination apparatus

The loop of either engine is shown to terminate by a lexicographic
measure ⟨star floor, question anchor, pattern cursor⟩, flattened into a
single natural number.  The "star floor" `w` is a ghost value: once a star
backtrack has advanced the star anchor to `w`, no later subject position
ever drops below `w` again, so every star backtrack strictly increases the
floor. -/

/-- The question-anchor component: `qTmpIdx + 1`, or `0` when the question
checkpoint is unset. -/
def questLow (st : MState) : Nat :=
  match st.quest with
  | none => 0
  | some (_, qt) => qt + 1

/-- Weight of one unit of the middle measure component. -/
def wtB (p : List Nat) : Nat := p.length + 1

/-- Weight of one unit of the top measure component; strictly larger than
any possible value of the lower two components combined. -/
def wtA (p s : List Nat) : Nat := (s.length + 2) * (p.length + 1)

/-- The flattened lexicographic termination measure of a loop state,
relative to the star floor `w`. -/
def loopMeasure (p s : List Nat) (w : Nat) (st : MState) : Nat :=
  (s.length + 1 - w) * wtA p s + (s.length + 1 - questLow st) * wtB p +
    (p.length - st.pIdx)

/-- The loop invariant relative to the star floor `w`: all cursors are in
bounds, the subject cursor and both checkpoint anchors never drop below the
floor, and the question anchor never exceeds the subject cursor. -/
def LoopInv (p s : List Nat) (w : Nat) (st : MState) : Prop :=
  w ≤ st.sIdx ∧ st.sIdx ≤ s.length ∧ st.pIdx ≤ p.length ∧
  (∀ a b, st.star = some (a, b) → w ≤ b ∧ b ≤ s.length ∧ a ≤ p.length) ∧
  (∀ a b, st.quest = some (a, b) → w ≤ b ∧ b ≤ st.sIdx ∧ a ≤ p.length)

/-! ## Lemmas and claim theorems -/

theorem utf8DecodeRune_width_pos : ∀ (l : List Nat), l ≠ [] → 1 ≤ (utf8DecodeRune l).2
  | [], h => absurd rfl h
  | b0 :: rest, _ => by
    rcases rest with _ | ⟨b1, _ | ⟨b2, _ | ⟨b3, tail⟩⟩⟩ <;>
      (simp only [utf8DecodeRune]; split_ifs <;> simp)

theorem utf8DecodeRune_width_le : ∀ (l : List Nat), (utf8DecodeRune l).2 ≤ l.length
  | [] => by simp [utf8DecodeRune]
  | b0 :: rest => by
    rcases rest with _ | ⟨b1, _ | ⟨b2, _ | ⟨b3, tail⟩⟩⟩ <;>
      (simp only [utf8DecodeRune]; split_ifs <;> simp)

theorem utf8DecodeRune_ascii (b0 : Nat) (rest : List Nat) (h : b0 < 0x80) :
    utf8DecodeRune (b0 :: rest) = (b0, 1) := by
  simp [utf8DecodeRune, h]

/-- Every decode of a byte list starting with a non-ASCII byte yields a
codepoint that is at least `0x80` (valid multi-byte sequences decode above
`0x80` because overlong encodings are rejected, and invalid ones decode to
`0xFFFD`). -/
theorem utf8DecodeRune_nonascii_ge (b0 : Nat) (rest : List Nat) (h : 0x80 ≤ b0) :
    0x80 ≤ (utf8DecodeRune (b0 :: rest)).1 := by
  rcases rest with _ | ⟨b1, _ | ⟨b2, _ | ⟨b3, tail⟩⟩⟩ <;>
    · simp only [utf8DecodeRune]
      split_ifs <;> dsimp only <;> try omega
      all_goals
        (rename_i hacc
         obtain ⟨ha, -⟩ := hacc
         first
         | (simp only [utf8Accept3] at ha; split_ifs at ha <;> simp at ha <;> omega)
         | (simp only [utf8Accept4] at ha; split_ifs at ha <;> simp at ha <;> omega))

theorem indexOf_le (hay needle : List Nat) (n : Nat)
    (h : indexOf hay needle = some n) : n ≤ hay.length := by
  induction hay generalizing n with
  | nil =>
    unfold indexOf at h
    split at h <;> simp_all
  | cons b t ih =>
    unfold indexOf at h
    split at h
    · simp at h; omega
    · simp only [Option.map_eq_some'] at h
      obtain ⟨m, hm, hmeq⟩ := h
      have := ih m hm
      simp only [List.length_cons]
      omega

theorem decodeAt_width_pos (l : List Nat) (i : Nat) (h : i < l.length) :
    1 ≤ (utf8DecodeRune (l.drop i)).2 := by
  apply utf8DecodeRune_width_pos
  intro hcon
  rw [List.drop_eq_nil_iff] at hcon
  omega

theorem decodeAt_width_le (l : List Nat) (i : Nat) :
    i + (utf8DecodeRune (l.drop i)).2 ≤ max i l.length := by
  have := utf8DecodeRune_width_le (l.drop i)
  simp only [List.length_drop] at this
  omega

theorem byteAt_cons_drop (l : List Nat) (i : Nat) (h : i < l.length) :
    l.drop i = byteAt l i :: l.drop (i + 1) := by
  rw [List.drop_eq_getElem_cons h]
  congr 1
  simp [byteAt, List.getElem?_eq_getElem h]

theorem wildRun_le (l : List Nat) : wildRun l ≤ l.length := by
  induction l with
  | nil => simp [wildRun]
  | cons b t ih =>
    unfold wildRun
    split <;> simp <;> omega

theorem skipWild_ge (p : List Nat) (i : Nat) : i ≤ skipWild p i :=
  Nat.le_add_right _ _

theorem skipWild_le (p : List Nat) (i : Nat) (h : i ≤ p.length) :
    skipWild p i ≤ p.length := by
  unfold skipWild
  have := wildRun_le (p.drop i)
  simp only [List.length_drop] at this
  omega

theorem skipWild_gt (p : List Nat) (i : Nat) (h : i < p.length)
    (hb : byteAt p i = 42 ∨ byteAt p i = 63) : i < skipWild p i := by
  unfold skipWild
  rw [byteAt_cons_drop p i h]
  unfold wildRun
  rw [if_pos hb]
  omega

theorem qRun_le (l : List Nat) : qRun l ≤ l.length := by
  induction l with
  | nil => simp [qRun]
  | cons b t ih =>
    unfold qRun
    split <;> simp <;> omega

theorem countQ_le (p : List Nat) (i : Nat) (h : i ≤ p.length) :
    i + countQ p i ≤ p.length := by
  unfold countQ
  have := qRun_le (p.drop i)
  simp only [List.length_drop] at this
  omega

theorem countQ_pos (p : List Nat) (i : Nat) (h : i < p.length)
    (hb : byteAt p i = 63) : 1 ≤ countQ p i := by
  unfold countQ
  rw [byteAt_cons_drop p i h]
  unfold qRun
  rw [if_pos hb]
  omega

theorem asciiParseTail_bounds (p : List Nat) (pi1 c1 : Nat)
    (cc cc' : AsciiEngine.CharClass) (pi' : Nat)
    (h : AsciiEngine.parseClassTail p pi1 c1 cc = some (cc', pi')) : pi1 ≤ pi' := by
  unfold AsciiEngine.parseClassTail at h
  split at h
  · split at h
    · split at h
      · exact absurd h (by simp)
      · split at h
        · split at h
          · split at h
            · exact absurd h (by simp)
            · simp only [Option.some.injEq, Prod.mk.injEq] at h
              omega
          · exact absurd h (by simp)
        · split at h
          · exact absurd h (by simp)
          · simp only [Option.some.injEq, Prod.mk.injEq] at h
            omega
    · simp only [Option.some.injEq, Prod.mk.injEq] at h
      omega
  · simp only [Option.some.injEq, Prod.mk.injEq] at h
    omega

theorem asciiParseBody_bounds (p : List Nat) :
    ∀ (fuel pi : Nat) (f : Bool) (cc cc' : AsciiEngine.CharClass) (np : Nat),
      AsciiEngine.parseClassBody p fuel pi f cc = some (cc', np) →
      pi < np ∧ np ≤ p.length := by
  intro fuel
  induction fuel with
  | zero =>
    intro pi f cc cc' np h
    simp [AsciiEngine.parseClassBody] at h
  | succ n ih =>
    intro pi f cc cc' np h
    rw [AsciiEngine.parseClassBody] at h
    split at h
    · rename_i hpi
      split at h
      · simp only [Option.some.injEq, Prod.mk.injEq] at h
        omega
      · split at h
        · split at h
          · split at h
            · exact absurd h (by simp)
            · rename_i cc2pi2 htail
              have h1 := asciiParseTail_bounds p (pi + 2) _ _ _ _ htail
              have h2 := ih _ false _ cc' np h
              omega
          · exact absurd h (by simp)
        · split at h
          · exact absurd h (by simp)
          · rename_i cc2pi2 htail
            have h1 := asciiParseTail_bounds p (pi + 1) _ _ _ _ htail
            have h2 := ih _ false _ cc' np h
            omega
    · exact absurd h (by simp)

theorem asciiParseBody_fuel_ext (p : List Nat) :
    ∀ (fuel1 fuel2 pi : Nat) (f : Bool) (cc : AsciiEngine.CharClass),
      p.length - pi < fuel1 → p.length - pi < fuel2 →
      AsciiEngine.parseClassBody p fuel1 pi f cc = AsciiEngine.parseClassBody p fuel2 pi f cc := by
  intro fuel1
  induction fuel1 with
  | zero => intro fuel2 pi f cc h1 h2; omega
  | succ n ih =>
    intro fuel2 pi f cc h1 h2
    obtain ⟨m, rfl⟩ : ∃ m, fuel2 = m + 1 := ⟨fuel2 - 1, by omega⟩
    rw [AsciiEngine.parseClassBody, AsciiEngine.parseClassBody]
    split
    · rename_i hpi
      split
      · rfl
      · split
        · split
          · cases htail : AsciiEngine.parseClassTail p (pi + 2) (byteAt p (pi + 1)) cc with
            | none => rfl
            | some pr =>
              obtain ⟨cc2, pi2⟩ := pr
              dsimp only
              have := asciiParseTail_bounds p (pi + 2) _ _ _ _ htail
              exact ih m pi2 false cc2 (by omega) (by omega)
          · rfl
        · cases htail : AsciiEngine.parseClassTail p (pi + 1) (byteAt p pi) cc with
          | none => rfl
          | some pr =>
            obtain ⟨cc2, pi2⟩ := pr
            dsimp only
            have := asciiParseTail_bounds p (pi + 1) _ _ _ _ htail
            exact ih m pi2 false cc2 (by omega) (by omega)
    · rfl

theorem NewCharClass_bounds (p : List Nat) (pi : Nat)
    (cc : AsciiEngine.CharClass) (np : Nat)
    (h : AsciiEngine.NewCharClass p pi = some (cc, np)) :
    pi < np ∧ np ≤ p.length := by
  unfold AsciiEngine.NewCharClass at h
  split at h
  · exact absurd h (by simp)
  · rename_i hg
    split at h
    · exact absurd h (by simp)
    · split at h
      · split at h
        · exact absurd h (by simp)
        · have := asciiParseBody_bounds p _ _ _ _ _ _ h
          omega
      · have := asciiParseBody_bounds p _ _ _ _ _ _ h
        omega

theorem foldParseRange_bounds (p : List Nat) (pi2 c1 : Nat)
    (cc cc' : FoldEngine.CharClass) (pi' : Nat)
    (h : FoldEngine.parseClassRange p pi2 c1 cc = some (cc', pi')) : pi2 ≤ pi' := by
  unfold FoldEngine.parseClassRange at h
  split at h
  · split at h
    · split at h
      · exact absurd h (by simp)
      · simp only [Option.some.injEq, Prod.mk.injEq] at h
        omega
    · exact absurd h (by simp)
  · split at h
    · exact absurd h (by simp)
    · simp only [Option.some.injEq, Prod.mk.injEq] at h
      omega

theorem foldParseTail_bounds (p : List Nat) (pi1 c1 : Nat)
    (cc cc' : FoldEngine.CharClass) (pi' : Nat)
    (h : FoldEngine.parseClassTail p pi1 c1 cc = some (cc', pi')) : pi1 ≤ pi' := by
  unfold FoldEngine.parseClassTail at h
  split at h
  · split at h
    · split at h
      · split at h
        · exact absurd h (by simp)
        · have := foldParseRange_bounds p _ _ _ _ _ h
          omega
      · simp only [Option.some.injEq, Prod.mk.injEq] at h
        omega
    · simp only [Option.some.injEq, Prod.mk.injEq] at h
      omega
  · simp only [Option.some.injEq, Prod.mk.injEq] at h
    omega

theorem foldParseBody_bounds (p : List Nat) :
    ∀ (fuel pi : Nat) (f : Bool) (cc cc' : FoldEngine.CharClass) (np : Nat),
      FoldEngine.parseClassBody p fuel pi f cc = some (cc', np) →
      pi < np ∧ np ≤ p.length := by
  intro fuel
  induction fuel with
  | zero =>
    intro pi f cc cc' np h
    simp [FoldEngine.parseClassBody] at h
  | succ n ih =>
    intro pi f cc cc' np h
    rw [FoldEngine.parseClassBody] at h
    split at h
    · rename_i hpi
      have hw1 : 1 ≤ (utf8DecodeRune (p.drop pi)).2 := decodeAt_width_pos p pi hpi
      have hw2 := decodeAt_width_le p pi
      split at h
      · simp only [Option.some.injEq, Prod.mk.injEq] at h
        omega
      · split at h
        · split at h
          · split at h
            · exact absurd h (by simp)
            · rename_i cc2pi2 htail
              have h1 := foldParseTail_bounds p _ _ _ _ _ htail
              have h2 := ih _ false _ cc' np h
              omega
          · exact absurd h (by simp)
        · split at h
          · exact absurd h (by simp)
          · rename_i cc2pi2 htail
            have h1 := foldParseTail_bounds p _ _ _ _ _ htail
            have h2 := ih _ false _ cc' np h
            omega
    · exact absurd h (by simp)

theorem foldParseBody_fuel_ext (p : List Nat) :
    ∀ (fuel1 fuel2 pi : Nat) (f : Bool) (cc : FoldEngine.CharClass),
      p.length - pi < fuel1 → p.length - pi < fuel2 →
      FoldEngine.parseClassBody p fuel1 pi f cc = FoldEngine.parseClassBody p fuel2 pi f cc := by
  intro fuel1
  induction fuel1 with
  | zero => intro fuel2 pi f cc h1 h2; omega
  | succ n ih =>
    intro fuel2 pi f cc h1 h2
    obtain ⟨m, rfl⟩ : ∃ m, fuel2 = m + 1 := ⟨fuel2 - 1, by omega⟩
    rw [FoldEngine.parseClassBody, FoldEngine.parseClassBody]
    split
    · rename_i hpi
      have hw1 : 1 ≤ (utf8DecodeRune (p.drop pi)).2 := decodeAt_width_pos p pi hpi
      split
      · rfl
      · split
        · split
          · cases htail : FoldEngine.parseClassTail p
                (pi + (utf8DecodeRune (p.drop pi)).2 +
                  (utf8DecodeRune (p.drop (pi + (utf8DecodeRune (p.drop pi)).2))).2)
                (utf8DecodeRune (p.drop (pi + (utf8DecodeRune (p.drop pi)).2))).1 cc with
            | none => rfl
            | some pr =>
              obtain ⟨cc2, pi2⟩ := pr
              dsimp only
              have := foldParseTail_bounds p _ _ _ _ _ htail
              exact ih m pi2 false cc2 (by omega) (by omega)
          · rfl
        · cases htail : FoldEngine.parseClassTail p (pi + (utf8DecodeRune (p.drop pi)).2)
              (utf8DecodeRune (p.drop pi)).1 cc with
          | none => rfl
          | some pr =>
            obtain ⟨cc2, pi2⟩ := pr
            dsimp only
            have := foldParseTail_bounds p _ _ _ _ _ htail
            exact ih m pi2 false cc2 (by omega) (by omega)
    · rfl

theorem NewcharClassFold_bounds (p : List Nat) (pi : Nat)
    (cc : FoldEngine.CharClass) (np : Nat)
    (h : FoldEngine.NewcharClassFold p pi = some (cc, np)) :
    pi < np ∧ np ≤ p.length := by
  unfold FoldEngine.NewcharClassFold at h
  split at h
  · exact absurd h (by simp)
  · rename_i hg
    simp only [] at h
    split at h
    · exact absurd h (by simp)
    · split at h
      · exact absurd h (by simp)
      · split at h
        · split at h
          · exact absurd h (by simp)
          · have := foldParseBody_bounds p _ _ _ _ _ _ h
            omega
        · have := foldParseBody_bounds p _ _ _ _ _ _ h
          omega

theorem pickIndex_eq (b : Bool) : pickIndex b = indexOf := by
  cases b <;> rfl

theorem pickDecode_eq (b : Bool) : pickDecode b = utf8DecodeRune := by
  cases b <;> rfl

theorem lexA_lt (A B c1 c2 c2' c3 c3' : Nat)
    (h2 : c2' ≤ c2) (h3 : c3' < c3) :
    c1 * A + c2' * B + c3' < c1 * A + c2 * B + c3 := by
  have := Nat.mul_le_mul_right B h2
  omega

theorem lexB_lt (A B c1 c2 c2' c3 c3' : Nat)
    (h2 : c2' < c2) (h3 : c3' < B) :
    c1 * A + c2' * B + c3' < c1 * A + c2 * B + c3 := by
  have h := Nat.mul_le_mul_right B (Nat.succ_le_of_lt h2)
  have hx : c2' * B + B ≤ c2 * B := by
    calc c2' * B + B = (c2' + 1) * B := by ring
    _ ≤ c2 * B := h
  omega

theorem lexC_lt (A B c1 c1' c2 c2' c3 c3' : Nat)
    (h1 : c1' < c1) (hbound : c2' * B + c3' < A) :
    c1' * A + c2' * B + c3' < c1 * A + c2 * B + c3 := by
  have h := Nat.mul_le_mul_right A (Nat.succ_le_of_lt h1)
  have hx : c1' * A + A ≤ c1 * A := by
    calc c1' * A + A = (c1' + 1) * A := by ring
    _ ≤ c1 * A := h
  omega

theorem lowBound (p s : List Nat) (c2 c3 : Nat)
    (h2 : c2 ≤ s.length + 1) (h3 : c3 ≤ p.length) :
    c2 * wtB p + c3 < wtA p s := by
  unfold wtB wtA
  have h := Nat.mul_le_mul_right (p.length + 1) h2
  have heq : (s.length + 2) * (p.length + 1)
      = (s.length + 1) * (p.length + 1) + (p.length + 1) := by ring
  omega

theorem starBacktrackA_decreases (isString : Bool) (p s : List Nat) (w : Nat) (st : MState)
    (hJ : LoopInv p s w st) :
    (∃ r, AsciiEngine.starBacktrackA isString s st = .done r) ∨
    (∃ st' w', AsciiEngine.starBacktrackA isString s st = .next st' ∧ LoopInv p s w' st' ∧
      loopMeasure p s w' st' < loopMeasure p s w st) := by
  obtain ⟨hws, hsL, hpP, hstar, hquest⟩ := hJ
  unfold AsciiEngine.starBacktrackA
  cases hso : st.star with
  | none => exact Or.inl ⟨_, rfl⟩
  | some pr =>
    obtain ⟨si, stv⟩ := pr
    dsimp only []
    obtain ⟨hwb, hbL, hsiP⟩ := hstar si stv hso
    by_cases hlt : stv < s.length
    · rw [if_pos hlt]
      cases hlit : st.starLit with
      | none =>
        dsimp only []
        right
        refine ⟨_, stv + 1, rfl, ?_, ?_⟩
        · refine ⟨?_, ?_, ?_, ?_, ?_⟩ <;> dsimp only
          · omega
          · omega
          · omega
          · intro a b hab
            simp only [Option.some.injEq, Prod.mk.injEq] at hab
            exact ⟨by omega, by omega, by omega⟩
          · intro a b hab
            simp at hab
        · unfold loopMeasure
          simp only [questLow]
          exact lexC_lt _ _ _ _ _ _ _ _ (by omega)
            (lowBound p s _ _ (by omega) (by omega))
      | some lit =>
        dsimp only []
        cases hidx : pickIndex isString (s.drop (stv + 1)) lit with
        | none => exact Or.inl ⟨_, rfl⟩
        | some n =>
          dsimp only []
          have hnle : n ≤ s.length - stv - 1 := by
            have h0 : indexOf (s.drop (stv + 1)) lit = some n := by
              rw [pickIndex_eq] at hidx; exact hidx
            have := indexOf_le (s.drop (stv + 1)) lit n h0
            simpa using this
          right
          refine ⟨_, stv + n + 1, rfl, ?_, ?_⟩
          · refine ⟨?_, ?_, ?_, ?_, ?_⟩ <;> dsimp only
            · omega
            · omega
            · omega
            · intro a b hab
              simp only [Option.some.injEq, Prod.mk.injEq] at hab
              exact ⟨by omega, by omega, by omega⟩
            · intro a b hab
              simp at hab
          · unfold loopMeasure
            simp only [questLow]
            exact lexC_lt _ _ _ _ _ _ _ _ (by omega)
              (lowBound p s _ _ (by omega) (by omega))
    · rw [if_neg hlt]
      exact Or.inl ⟨_, rfl⟩

theorem backtrackA_decreases (isString : Bool) (p s : List Nat) (w : Nat) (st : MState)
    (hJ : LoopInv p s w st) :
    (∃ r, AsciiEngine.backtrackA isString s st = .done r) ∨
    (∃ st' w', AsciiEngine.backtrackA isString s st = .next st' ∧ LoopInv p s w' st' ∧
      loopMeasure p s w' st' < loopMeasure p s w st) := by
  have hJ' := hJ
  obtain ⟨hws, hsL, hpP, hstar, hquest⟩ := hJ
  unfold AsciiEngine.backtrackA
  cases hqo : st.quest with
  | none => exact starBacktrackA_decreases isString p s w st hJ'
  | some pr =>
    obtain ⟨qi, qt⟩ := pr
    dsimp only []
    by_cases hc : qt < s.length ∧ st.qMatched < st.qCount
    · rw [if_pos hc]
      obtain ⟨hwq, hqs, hqiP⟩ := hquest qi qt hqo
      right
      refine ⟨_, w, rfl, ?_, ?_⟩
      · refine ⟨?_, ?_, ?_, ?_, ?_⟩ <;> dsimp only
        · omega
        · omega
        · omega
        · intro a b hab
          exact hstar a b hab
        · intro a b hab
          simp only [Option.some.injEq, Prod.mk.injEq] at hab
          exact ⟨by omega, by omega, by omega⟩
      · unfold loopMeasure
        simp only [questLow, hqo]
        exact lexB_lt _ _ _ _ _ _ _ (by omega) (by unfold wtB; omega)
    · rw [if_neg hc]
      exact starBacktrackA_decreases isString p s w st hJ'

theorem LoopInv_pIdx (p s : List Nat) (w : Nat) (st : MState) (k : Nat)
    (hJ : LoopInv p s w st) (hk : k ≤ p.length) :
    LoopInv p s w { st with pIdx := k } := by
  obtain ⟨h1, h2, h3, h4, h5⟩ := hJ
  exact ⟨h1, h2, hk, fun a b hab => h4 a b hab, fun a b hab => h5 a b hab⟩

theorem loopMeasure_pIdx_mono (p s : List Nat) (w : Nat) (st : MState) (k : Nat)
    (h : st.pIdx ≤ k) :
    loopMeasure p s w { st with pIdx := k } ≤ loopMeasure p s w st := by
  unfold loopMeasure
  simp only [questLow]
  omega

/-- A committed forward step: both cursors advance within bounds, the
checkpoints stay put, and the measure drops through its pattern-cursor
component. -/
theorem forward_decreases (p s : List Nat) (w : Nat) (st : MState) (pk sk : Nat)
    (hJ : LoopInv p s w st)
    (hpk : st.pIdx < pk) (hpkP : pk ≤ p.length) (hsk : st.sIdx ≤ sk) (hskL : sk ≤ s.length) :
    LoopInv p s w { st with pIdx := pk, sIdx := sk } ∧
    loopMeasure p s w { st with pIdx := pk, sIdx := sk } < loopMeasure p s w st := by
  obtain ⟨hws, hsL, hpP, hstar, hquest⟩ := hJ
  constructor
  · refine ⟨?_, ?_, ?_, ?_, ?_⟩ <;> dsimp only
    · omega
    · omega
    · omega
    · intro a b hab
      exact hstar a b hab
    · intro a b hab
      obtain ⟨x, y, z⟩ := hquest a b hab
      exact ⟨x, by omega, z⟩
  · unfold loopMeasure
    simp only [questLow]
    apply lexA_lt
    · omega
    · omega

theorem stepA_decreases (isString : Bool) (p s : List Nat) (w : Nat) (st : MState)
    (hJ : LoopInv p s w st) :
    (∃ r, AsciiEngine.stepA isString p s st = .done r) ∨
    (∃ st' w', AsciiEngine.stepA isString p s st = .next st' ∧ LoopInv p s w' st' ∧
      loopMeasure p s w' st' < loopMeasure p s w st) := by
  have hJ' := hJ
  obtain ⟨hws, hsL, hpP, hstar, hquest⟩ := hJ
  unfold AsciiEngine.stepA
  by_cases h1 : st.pIdx ≥ p.length ∧ st.sIdx ≥ s.length
  · rw [if_pos h1]
    exact Or.inl ⟨_, rfl⟩
  rw [if_neg h1]
  by_cases h2 : st.pIdx < p.length ∧ byteAt p st.pIdx = 42
  · rw [if_pos h2]
    right
    have hsw := skipWild_ge p st.pIdx
    have hswle := skipWild_le p st.pIdx (by omega)
    have hswgt := skipWild_gt p st.pIdx h2.1 (Or.inl h2.2)
    refine ⟨_, w, rfl, ?_, ?_⟩
    · refine ⟨?_, ?_, ?_, ?_, ?_⟩ <;> dsimp only
      · omega
      · omega
      · omega
      · intro a b hab
        simp only [Option.some.injEq, Prod.mk.injEq] at hab
        exact ⟨by omega, by omega, by omega⟩
      · intro a b hab
        exact hquest a b hab
    · unfold loopMeasure
      simp only [questLow]
      apply lexA_lt
      · omega
      · omega
  rw [if_neg h2]
  by_cases h3 : st.pIdx < p.length ∧ byteAt p st.pIdx = 63
  · rw [if_pos h3]
    right
    have hq1 := countQ_pos p st.pIdx h3.1 h3.2
    have hq2 := countQ_le p st.pIdx (by omega)
    refine ⟨_, w, rfl, ?_, ?_⟩
    · refine ⟨?_, ?_, ?_, ?_, ?_⟩ <;> dsimp only
      · omega
      · omega
      · omega
      · intro a b hab
        exact hstar a b hab
      · intro a b hab
        simp only [Option.some.injEq, Prod.mk.injEq] at hab
        exact ⟨by omega, by omega, by omega⟩
    · unfold loopMeasure
      simp only [questLow]
      apply lexA_lt
      · cases hq : st.quest with
        | none => dsimp only; omega
        | some pr =>
          obtain ⟨a, b⟩ := pr
          have := hquest a b hq
          dsimp only
          omega
      · omega
  rw [if_neg h3]
  by_cases h4 : st.sIdx = s.length
  · rw [if_pos h4]
    by_cases h5 : skipWild p st.pIdx = p.length
    · rw [if_pos h5]
      exact Or.inl ⟨_, rfl⟩
    · rw [if_neg h5]
      have hinv2 : LoopInv p s w { st with pIdx := skipWild p st.pIdx } :=
        LoopInv_pIdx p s w st _ hJ' (skipWild_le p st.pIdx (by omega))
      rcases backtrackA_decreases isString p s w _ hinv2 with ⟨r, hr⟩ | ⟨st', w', hn, hi, hm⟩
      · exact Or.inl ⟨r, hr⟩
      · exact Or.inr ⟨st', w', hn, hi,
          lt_of_lt_of_le hm (loopMeasure_pIdx_mono p s w st _ (skipWild_ge p st.pIdx))⟩
  rw [if_neg h4]
  by_cases h6 : st.pIdx < p.length ∧ byteAt p st.pIdx = 92
  · rw [if_pos h6]
    by_cases h7 : st.pIdx + 1 ≥ p.length
    · rw [if_pos h7]
      by_cases h8 : st.sIdx < s.length ∧ byteAt s st.sIdx = 92
      · rw [if_pos h8]
        right
        have hf := forward_decreases p s w st (st.pIdx + 1) (st.sIdx + 1) hJ'
          (by omega) (by omega) (by omega) (by omega)
        exact ⟨_, w, rfl, hf.1, hf.2⟩
      · rw [if_neg h8]
        exact backtrackA_decreases isString p s w st hJ'
    · rw [if_neg h7]
      by_cases h9 : st.sIdx < s.length ∧ byteAt p (st.pIdx + 1) = byteAt s st.sIdx
      · rw [if_pos h9]
        right
        have hf := forward_decreases p s w st (st.pIdx + 2) (st.sIdx + 1) hJ'
          (by omega) (by omega) (by omega) (by omega)
        exact ⟨_, w, rfl, hf.1, hf.2⟩
      · rw [if_neg h9]
        exact backtrackA_decreases isString p s w st hJ'
  rw [if_neg h6]
  by_cases h10 : st.pIdx < p.length ∧ byteAt p st.pIdx = 46
  · rw [if_pos h10]
    by_cases h11 : st.sIdx ≥ s.length
    · rw [if_pos h11]
      exact backtrackA_decreases isString p s w st hJ'
    · rw [if_neg h11]
      by_cases h12 : byteAt s st.sIdx = 10
      · rw [if_pos h12]
        exact backtrackA_decreases isString p s w st hJ'
      · rw [if_neg h12]
        right
        have hf := forward_decreases p s w st (st.pIdx + 1) (st.sIdx + 1) hJ'
          (by omega) (by omega) (by omega) (by omega)
        exact ⟨_, w, rfl, hf.1, hf.2⟩
  rw [if_neg h10]
  by_cases h13 : st.pIdx < p.length ∧ byteAt p st.pIdx = 91
  · rw [if_pos h13]
    cases hcc : AsciiEngine.NewCharClass p st.pIdx with
    | none => exact Or.inl ⟨_, rfl⟩
    | some pr =>
      obtain ⟨cc, np⟩ := pr
      dsimp only []
      obtain ⟨hnp1, hnp2⟩ := NewCharClass_bounds p st.pIdx cc np hcc
      by_cases h14 : st.sIdx ≥ s.length
      · rw [if_pos h14]
        exact backtrackA_decreases isString p s w st hJ'
      · rw [if_neg h14]
        by_cases h15 : cc.matches (byteAt s st.sIdx) = true
        · rw [if_pos h15]
          right
          have hf := forward_decreases p s w st np (st.sIdx + 1) hJ'
            (by omega) (by omega) (by omega) (by omega)
          exact ⟨_, w, rfl, hf.1, hf.2⟩
        · rw [if_neg h15]
          exact backtrackA_decreases isString p s w st hJ'
  rw [if_neg h13]
  by_cases h16 : st.pIdx < p.length ∧ st.sIdx < s.length
  · rw [if_pos h16]
    by_cases h17 : byteAt p st.pIdx = byteAt s st.sIdx
    · rw [if_pos h17]
      right
      have hf := forward_decreases p s w st (st.pIdx + 1) (st.sIdx + 1) hJ'
        (by omega) (by omega) (by omega) (by omega)
      exact ⟨_, w, rfl, hf.1, hf.2⟩
    · rw [if_neg h17]
      exact backtrackA_decreases isString p s w st hJ'
  · rw [if_neg h16]
    exact backtrackA_decreases isString p s w st hJ'

theorem runA_mono (isString : Bool) (p s : List Nat) :
    ∀ (f1 f2 : Nat) (st : MState) (r : MRes),
      AsciiEngine.runA isString p s f1 st = some r → f1 ≤ f2 →
      AsciiEngine.runA isString p s f2 st = some r := by
  intro f1
  induction f1 with
  | zero => intro f2 st r h; simp [AsciiEngine.runA] at h
  | succ n ih =>
    intro f2 st r h hle
    obtain ⟨m, rfl⟩ : ∃ m, f2 = m + 1 := ⟨f2 - 1, by omega⟩
    rw [AsciiEngine.runA] at h ⊢
    cases hstep : AsciiEngine.stepA isString p s st with
    | done r' => rw [hstep] at h; simpa using h
    | next st' =>
      rw [hstep] at h
      simpa using ih m st' r (by simpa using h) (by omega)

theorem runA_terminates (isString : Bool) (p s : List Nat) :
    ∀ (fuel : Nat) (w : Nat) (st : MState), LoopInv p s w st →
      loopMeasure p s w st < fuel → ∃ r, AsciiEngine.runA isString p s fuel st = some r := by
  intro fuel
  induction fuel with
  | zero => intro w st _ hm; omega
  | succ n ih =>
    intro w st hJ hm
    rcases stepA_decreases isString p s w st hJ with ⟨r, hr⟩ | ⟨st', w', hn, hi, hlt⟩
    · refine ⟨r, ?_⟩
      rw [AsciiEngine.runA, hr]
    · obtain ⟨r, hr⟩ := ih w' st' hi (by omega)
      refine ⟨r, ?_⟩
      rw [AsciiEngine.runA, hn]
      exact hr

theorem LoopInv_init (p s : List Nat) : LoopInv p s 0 initState := by
  refine ⟨Nat.zero_le _, Nat.zero_le _, Nat.zero_le _, ?_, ?_⟩ <;>
    (intro a b h; simp [initState] at h)

theorem loopMeasure_init_lt_Fuel (p s : List Nat) :
    loopMeasure p s 0 initState < Fuel p s := by
  unfold loopMeasure Fuel initState questLow wtA wtB
  dsimp only
  simp only [Nat.sub_zero]
  have e : (s.length + 2) * (s.length + 2) * (p.length + 1)
      = (s.length + 1) * ((s.length + 2) * (p.length + 1)) + (s.length + 2) * (p.length + 1) := by
    ring
  have e2 : (s.length + 2) * (p.length + 1)
      = (s.length + 1) * (p.length + 1) + (p.length + 1) := by ring
  omega

theorem MatchInternal_total (isString : Bool) (p s : List Nat) :
    ∃ r, MatchInternal isString p s = some r :=
  runA_terminates isString p s (Fuel p s) 0 initState (LoopInv_init p s)
    (loopMeasure_init_lt_Fuel p s)

theorem pickDecodeAt_width_pos (b : Bool) (l : List Nat) (i : Nat) (h : i < l.length) :
    1 ≤ (pickDecode b (l.drop i)).2 := by
  rw [pickDecode_eq]
  exact decodeAt_width_pos l i h

theorem pickDecodeAt_width_le (b : Bool) (l : List Nat) (i : Nat) :
    i + (pickDecode b (l.drop i)).2 ≤ max i l.length := by
  rw [pickDecode_eq]
  exact decodeAt_width_le l i

theorem starBacktrackF_decreases (isString : Bool) (p s : List Nat) (w : Nat) (st : MState)
    (hJ : LoopInv p s w st) :
    (∃ r, FoldEngine.starBacktrackF isString s st = .done r) ∨
    (∃ st' w', FoldEngine.starBacktrackF isString s st = .next st' ∧ LoopInv p s w' st' ∧
      loopMeasure p s w' st' < loopMeasure p s w st) := by
  obtain ⟨hws, hsL, hpP, hstar, hquest⟩ := hJ
  unfold FoldEngine.starBacktrackF
  cases hso : st.star with
  | none => exact Or.inl ⟨_, rfl⟩
  | some pr =>
    obtain ⟨si, stv⟩ := pr
    dsimp only []
    obtain ⟨hwb, hbL, hsiP⟩ := hstar si stv hso
    by_cases hlt : stv < s.length
    · rw [if_pos hlt]
      cases hlit : st.starLit with
      | none =>
        dsimp only []
        right
        refine ⟨_, stv + 1, rfl, ?_, ?_⟩
        · refine ⟨?_, ?_, ?_, ?_, ?_⟩ <;> dsimp only
          · omega
          · omega
          · omega
          · intro a b hab
            simp only [Option.some.injEq, Prod.mk.injEq] at hab
            exact ⟨by omega, by omega, by omega⟩
          · intro a b hab
            simp at hab
        · unfold loopMeasure
          simp only [questLow]
          exact lexC_lt _ _ _ _ _ _ _ _ (by omega)
            (lowBound p s _ _ (by omega) (by omega))
      | some lit =>
        dsimp only []
        cases hidx : pickIndex isString (s.drop (stv + 1)) lit with
        | none => exact Or.inl ⟨_, rfl⟩
        | some n =>
          dsimp only []
          have hnle : n ≤ s.length - stv - 1 := by
            have h0 : indexOf (s.drop (stv + 1)) lit = some n := by
              rw [pickIndex_eq] at hidx; exact hidx
            have := indexOf_le (s.drop (stv + 1)) lit n h0
            simpa using this
          right
          refine ⟨_, stv + n + 1, rfl, ?_, ?_⟩
          · refine ⟨?_, ?_, ?_, ?_, ?_⟩ <;> dsimp only
            · omega
            · omega
            · omega
            · intro a b hab
              simp only [Option.some.injEq, Prod.mk.injEq] at hab
              exact ⟨by omega, by omega, by omega⟩
            · intro a b hab
              simp at hab
          · unfold loopMeasure
            simp only [questLow]
            exact lexC_lt _ _ _ _ _ _ _ _ (by omega)
              (lowBound p s _ _ (by omega) (by omega))
    · rw [if_neg hlt]
      exact Or.inl ⟨_, rfl⟩

theorem backtrackF_decreases (isString : Bool) (p s : List Nat) (w : Nat) (st : MState)
    (hJ : LoopInv p s w st) :
    (∃ r, FoldEngine.backtrackF isString s st = .done r) ∨
    (∃ st' w', FoldEngine.backtrackF isString s st = .next st' ∧ LoopInv p s w' st' ∧
      loopMeasure p s w' st' < loopMeasure p s w st) := by
  have hJ' := hJ
  obtain ⟨hws, hsL, hpP, hstar, hquest⟩ := hJ
  unfold FoldEngine.backtrackF
  cases hqo : st.quest with
  | none => exact starBacktrackF_decreases isString p s w st hJ'
  | some pr =>
    obtain ⟨qi, qt⟩ := pr
    dsimp only []
    by_cases hc : qt < s.length ∧ st.qMatched < st.qCount
    · rw [if_pos hc]
      obtain ⟨hwq, hqs, hqiP⟩ := hquest qi qt hqo
      have hwd1 : 1 ≤ (pickDecode isString (s.drop qt)).2 :=
        pickDecodeAt_width_pos isString s qt hc.1
      have hwd2 : qt + (pickDecode isString (s.drop qt)).2 ≤ max qt s.length :=
        pickDecodeAt_width_le isString s qt
      right
      refine ⟨_, w, rfl, ?_, ?_⟩
      · refine ⟨?_, ?_, ?_, ?_, ?_⟩ <;> dsimp only
        · omega
        · omega
        · omega
        · intro a b hab
          exact hstar a b hab
        · intro a b hab
          simp only [Option.some.injEq, Prod.mk.injEq] at hab
          exact ⟨by omega, by omega, by omega⟩
      · unfold loopMeasure
        simp only [questLow, hqo]
        exact lexB_lt _ _ _ _ _ _ _ (by omega) (by unfold wtB; omega)
    · rw [if_neg hc]
      exact starBacktrackF_decreases isString p s w st hJ'

theorem stepF_decreases (isString fold : Bool) (p s : List Nat) (w : Nat) (st : MState)
    (hJ : LoopInv p s w st) :
    (∃ r, FoldEngine.stepF isString fold p s st = .done r) ∨
    (∃ st' w', FoldEngine.stepF isString fold p s st = .next st' ∧ LoopInv p s w' st' ∧
      loopMeasure p s w' st' < loopMeasure p s w st) := by
  have hJ' := hJ
  obtain ⟨hws, hsL, hpP, hstar, hquest⟩ := hJ
  unfold FoldEngine.stepF
  by_cases h1 : st.pIdx ≥ p.length ∧ st.sIdx ≥ s.length
  · rw [if_pos h1]
    exact Or.inl ⟨_, rfl⟩
  rw [if_neg h1]
  by_cases h2 : st.pIdx < p.length ∧ byteAt p st.pIdx = 42
  · rw [if_pos h2]
    right
    have hsw := skipWild_ge p st.pIdx
    have hswle := skipWild_le p st.pIdx (by omega)
    have hswgt := skipWild_gt p st.pIdx h2.1 (Or.inl h2.2)
    refine ⟨_, w, rfl, ?_, ?_⟩
    · refine ⟨?_, ?_, ?_, ?_, ?_⟩ <;> dsimp only
      · omega
      · omega
      · omega
      · intro a b hab
        simp only [Option.some.injEq, Prod.mk.injEq] at hab
        exact ⟨by omega, by omega, by omega⟩
      · intro a b hab
        exact hquest a b hab
    · unfold loopMeasure
      simp only [questLow]
      apply lexA_lt
      · omega
      · omega
  rw [if_neg h2]
  by_cases h3 : st.pIdx < p.length ∧ byteAt p st.pIdx = 63
  · rw [if_pos h3]
    right
    have hq1 := countQ_pos p st.pIdx h3.1 h3.2
    have hq2 := countQ_le p st.pIdx (by omega)
    refine ⟨_, w, rfl, ?_, ?_⟩
    · refine ⟨?_, ?_, ?_, ?_, ?_⟩ <;> dsimp only
      · omega
      · omega
      · omega
      · intro a b hab
        exact hstar a b hab
      · intro a b hab
        simp only [Option.some.injEq, Prod.mk.injEq] at hab
        exact ⟨by omega, by omega, by omega⟩
    · unfold loopMeasure
      simp only [questLow]
      apply lexA_lt
      · cases hq : st.quest with
        | none => dsimp only; omega
        | some pr =>
          obtain ⟨a, b⟩ := pr
          have := hquest a b hq
          dsimp only
          omega
      · omega
  rw [if_neg h3]
  by_cases h4 : st.sIdx = s.length
  · rw [if_pos h4]
    by_cases h5 : skipWild p st.pIdx = p.length
    · rw [if_pos h5]
      exact Or.inl ⟨_, rfl⟩
    · rw [if_neg h5]
      have hinv2 : LoopInv p s w { st with pIdx := skipWild p st.pIdx } :=
        LoopInv_pIdx p s w st _ hJ' (skipWild_le p st.pIdx (by omega))
      rcases backtrackF_decreases isString p s w _ hinv2 with ⟨r, hr⟩ | ⟨st', w', hn, hi, hm⟩
      · exact Or.inl ⟨r, hr⟩
      · exact Or.inr ⟨st', w', hn, hi,
          lt_of_lt_of_le hm (loopMeasure_pIdx_mono p s w st _ (skipWild_ge p st.pIdx))⟩
  rw [if_neg h4]
  by_cases h6 : st.pIdx < p.length ∧ byteAt p st.pIdx = 92
  · rw [if_pos h6]
    by_cases h7 : st.pIdx + 1 ≥ p.length
    · rw [if_pos h7]
      by_cases h8 : st.sIdx < s.length
      · rw [if_pos h8]
        have hwd1 := pickDecodeAt_width_pos isString s st.sIdx h8
        have hwd2 := pickDecodeAt_width_le isString s st.sIdx
        by_cases h8b : (pickDecode isString (s.drop st.sIdx)).1 = 92
        · rw [if_pos h8b]
          right
          have hf := forward_decreases p s w st (st.pIdx + 1)
            (st.sIdx + (pickDecode isString (s.drop st.sIdx)).2) hJ'
            (by omega) (by omega) (by omega) (by omega)
          exact ⟨_, w, rfl, hf.1, hf.2⟩
        · rw [if_neg h8b]
          exact backtrackF_decreases isString p s w st hJ'
      · rw [if_neg h8]
        exact backtrackF_decreases isString p s w st hJ'
    · rw [if_neg h7]
      by_cases h9 : st.sIdx < s.length
      · rw [if_pos h9]
        have hwd1 := pickDecodeAt_width_pos isString s st.sIdx h9
        have hwd2 := pickDecodeAt_width_le isString s st.sIdx
        by_cases h9b : (if fold then
            equalFoldRune (byteAt p (st.pIdx + 1)) (pickDecode isString (s.drop st.sIdx)).1
          else byteAt p (st.pIdx + 1) == (pickDecode isString (s.drop st.sIdx)).1) = true
        · rw [if_pos h9b]
          right
          have hf := forward_decreases p s w st (st.pIdx + 2)
            (st.sIdx + (pickDecode isString (s.drop st.sIdx)).2) hJ'
            (by omega) (by omega) (by omega) (by omega)
          exact ⟨_, w, rfl, hf.1, hf.2⟩
        · rw [if_neg h9b]
          exact backtrackF_decreases isString p s w st hJ'
      · rw [if_neg h9]
        exact backtrackF_decreases isString p s w st hJ'
  rw [if_neg h6]
  by_cases h10 : st.pIdx < p.length ∧ byteAt p st.pIdx = 46
  · rw [if_pos h10]
    by_cases h11 : st.sIdx ≥ s.length
    · rw [if_pos h11]
      exact backtrackF_decreases isString p s w st hJ'
    · rw [if_neg h11]
      have hwd1 := pickDecodeAt_width_pos isString s st.sIdx (by omega)
      have hwd2 := pickDecodeAt_width_le isString s st.sIdx
      by_cases h12 : (pickDecode isString (s.drop st.sIdx)).1 = 10
      · rw [if_pos h12]
        exact backtrackF_decreases isString p s w st hJ'
      · rw [if_neg h12]
        right
        have hf := forward_decreases p s w st (st.pIdx + 1)
          (st.sIdx + (pickDecode isString (s.drop st.sIdx)).2) hJ'
          (by omega) (by omega) (by omega) (by omega)
        exact ⟨_, w, rfl, hf.1, hf.2⟩
  rw [if_neg h10]
  by_cases h13 : st.pIdx < p.length ∧ byteAt p st.pIdx = 91
  · rw [if_pos h13]
    cases hcc : FoldEngine.NewcharClassFold p st.pIdx with
    | none => exact Or.inl ⟨_, rfl⟩
    | some pr =>
      obtain ⟨cc, np⟩ := pr
      dsimp only []
      obtain ⟨hnp1, hnp2⟩ := NewcharClassFold_bounds p st.pIdx cc np hcc
      by_cases h14 : st.sIdx ≥ s.length
      · rw [if_pos h14]
        exact backtrackF_decreases isString p s w st hJ'
      · rw [if_neg h14]
        have hwd1 := pickDecodeAt_width_pos isString s st.sIdx (by omega)
        have hwd2 := pickDecodeAt_width_le isString s st.sIdx
        by_cases h15 : cc.MatchesWithFold (pickDecode isString (s.drop st.sIdx)).1 fold = true
        · rw [if_pos h15]
          right
          have hf := forward_decreases p s w st np
            (st.sIdx + (pickDecode isString (s.drop st.sIdx)).2) hJ'
            (by omega) (by omega) (by omega) (by omega)
          exact ⟨_, w, rfl, hf.1, hf.2⟩
        · rw [if_neg h15]
          exact backtrackF_decreases isString p s w st hJ'
  rw [if_neg h13]
  by_cases h16 : st.pIdx < p.length ∧ st.sIdx < s.length
  · rw [if_pos h16]
    have hpd1 := pickDecodeAt_width_pos isString p st.pIdx h16.1
    have hpd2 := pickDecodeAt_width_le isString p st.pIdx
    have hwd1 := pickDecodeAt_width_pos isString s st.sIdx h16.2
    have hwd2 := pickDecodeAt_width_le isString s st.sIdx
    by_cases h17 : (if fold then
        equalFoldRune (pickDecode isString (p.drop st.pIdx)).1 (pickDecode isString (s.drop st.sIdx)).1
      else (pickDecode isString (p.drop st.pIdx)).1 == (pickDecode isString (s.drop st.sIdx)).1) = true
    · rw [if_pos h17]
      right
      have hf := forward_decreases p s w st (st.pIdx + (pickDecode isString (p.drop st.pIdx)).2)
        (st.sIdx + (pickDecode isString (s.drop st.sIdx)).2) hJ'
        (by omega) (by omega) (by omega) (by omega)
      exact ⟨_, w, rfl, hf.1, hf.2⟩
    · rw [if_neg h17]
      exact backtrackF_decreases isString p s w st hJ'
  · rw [if_neg h16]
    exact backtrackF_decreases isString p s w st hJ'

theorem runF_terminates (isString fold : Bool) (p s : List Nat) :
    ∀ (fuel : Nat) (w : Nat) (st : MState), LoopInv p s w st →
      loopMeasure p s w st < fuel → ∃ r, FoldEngine.runF isString fold p s fuel st = some r := by
  intro fuel
  induction fuel with
  | zero => intro w st _ hm; omega
  | succ n ih =>
    intro w st hJ hm
    rcases stepF_decreases isString fold p s w st hJ with ⟨r, hr⟩ | ⟨st', w', hn, hi, hlt⟩
    · refine ⟨r, ?_⟩
      rw [FoldEngine.runF, hr]
    · obtain ⟨r, hr⟩ := ih w' st' hi (by omega)
      refine ⟨r, ?_⟩
      rw [FoldEngine.runF, hn]
      exact hr

theorem MatchInternalFold_total (isString : Bool) (p s : List Nat) (fold : Bool) :
    ∃ r, MatchInternalFold isString p s fold = some r :=
  runF_terminates isString fold p s (Fuel p s) 0 initState (LoopInv_init p s)
    (loopMeasure_init_lt_Fuel p s)

theorem runF_mono (isString fold : Bool) (p s : List Nat) :
    ∀ (f1 f2 : Nat) (st : MState) (r : MRes),
      FoldEngine.runF isString fold p s f1 st = some r → f1 ≤ f2 →
      FoldEngine.runF isString fold p s f2 st = some r := by
  intro f1
  induction f1 with
  | zero => intro f2 st r h; simp [FoldEngine.runF] at h
  | succ n ih =>
    intro f2 st r h hle
    obtain ⟨m, rfl⟩ : ∃ m, f2 = m + 1 := ⟨f2 - 1, by omega⟩
    rw [FoldEngine.runF] at h ⊢
    cases hstep : FoldEngine.stepF isString fold p s st with
    | done r' => rw [hstep] at h; simpa using h
    | next st' =>
      rw [hstep] at h
      simpa using ih m st' r (by simpa using h) (by omega)

/-! ## Representation invariance (string view vs byte-slice view) -/

theorem starBacktrackA_repr (s : List Nat) (st : MState) :
    AsciiEngine.starBacktrackA true s st = AsciiEngine.starBacktrackA false s st := by
  unfold AsciiEngine.starBacktrackA
  simp only [pickIndex_eq]

theorem backtrackA_repr (s : List Nat) (st : MState) :
    AsciiEngine.backtrackA true s st = AsciiEngine.backtrackA false s st := by
  unfold AsciiEngine.backtrackA
  simp only [starBacktrackA_repr]

theorem stepA_repr (p s : List Nat) (st : MState) :
    AsciiEngine.stepA true p s st = AsciiEngine.stepA false p s st := by
  unfold AsciiEngine.stepA
  simp only [backtrackA_repr]

theorem runA_repr (p s : List Nat) :
    ∀ (fuel : Nat) (st : MState),
      AsciiEngine.runA true p s fuel st = AsciiEngine.runA false p s fuel st := by
  intro fuel
  induction fuel with
  | zero => intro st; rfl
  | succ n ih =>
    intro st
    rw [AsciiEngine.runA, AsciiEngine.runA, stepA_repr]
    cases AsciiEngine.stepA false p s st with
    | done r => rfl
    | next st' => exact ih st'

theorem starBacktrackF_repr (s : List Nat) (st : MState) :
    FoldEngine.starBacktrackF true s st = FoldEngine.starBacktrackF false s st := by
  unfold FoldEngine.starBacktrackF
  simp only [pickIndex_eq]

theorem backtrackF_repr (s : List Nat) (st : MState) :
    FoldEngine.backtrackF true s st = FoldEngine.backtrackF false s st := by
  unfold FoldEngine.backtrackF
  simp only [starBacktrackF_repr, pickDecode_eq]

theorem stepF_repr (fold : Bool) (p s : List Nat) (st : MState) :
    FoldEngine.stepF true fold p s st = FoldEngine.stepF false fold p s st := by
  unfold FoldEngine.stepF
  simp only [backtrackF_repr, pickDecode_eq]

theorem runF_repr (fold : Bool) (p s : List Nat) :
    ∀ (fuel : Nat) (st : MState),
      FoldEngine.runF true fold p s fuel st = FoldEngine.runF false fold p s fuel st := by
  intro fuel
  induction fuel with
  | zero => intro st; rfl
  | succ n ih =>
    intro st
    rw [FoldEngine.runF, FoldEngine.runF, stepF_repr]
    cases FoldEngine.stepF false fold p s st with
    | done r => rfl
    | next st' => exact ih st'

/-! ## Small fuel arithmetic -/

theorem Fuel_pos (p s : List Nat) : 0 < Fuel p s := by
  unfold Fuel
  positivity

theorem Fuel_big (p s : List Nat) : s.length + 2 ≤ Fuel p s := by
  unfold Fuel
  have h1 : s.length + 2 ≤ (s.length + 2) * (s.length + 2) :=
    Nat.le_mul_of_pos_left _ (by omega)
  have h2 : (s.length + 2) * (s.length + 2) ≤
      (s.length + 2) * (s.length + 2) * (p.length + 1) :=
    Nat.le_mul_of_pos_right _ (by omega)
  omega

/-! ## The star-replay loop on the pattern consisting of a single star -/

theorem runA_star (isString : Bool) (s : List Nat) :
    ∀ (n k : Nat), k ≤ s.length → s.length - k < n →
      AsciiEngine.runA isString [42] s n ⟨1, k, some (1, k), none, 0, 0, none⟩ =
        some (MRes.ok true) := by
  intro n
  induction n with
  | zero => intro k hk hn; omega
  | succ m ih =>
    intro k hk hn
    rw [AsciiEngine.runA]
    by_cases hks : k = s.length
    · subst hks
      have hstep : AsciiEngine.stepA isString [42] s
          ⟨1, s.length, some (1, s.length), none, 0, 0, none⟩ = .done (.ok true) := by
        unfold AsciiEngine.stepA
        rw [if_pos (by dsimp only; simp)]
      rw [hstep]
    · have hk2 : k < s.length := by omega
      have hstep : AsciiEngine.stepA isString [42] s ⟨1, k, some (1, k), none, 0, 0, none⟩ =
          .next ⟨1, k + 1, some (1, k + 1), none, 0, 0, none⟩ := by
        unfold AsciiEngine.stepA
        rw [if_neg (by dsimp only; simp; omega), if_neg (by dsimp only; simp),
            if_neg (by dsimp only; simp), if_neg hks, if_neg (by dsimp only; simp),
            if_neg (by dsimp only; simp), if_neg (by dsimp only; simp),
            if_neg (by dsimp only; simp)]
        unfold AsciiEngine.backtrackA AsciiEngine.starBacktrackA
        dsimp only
        rw [if_pos hk2]
      rw [hstep]
      exact ih (k + 1) (by omega) (by omega)

theorem runF_star (isString fold : Bool) (s : List Nat) :
    ∀ (n k : Nat), k ≤ s.length → s.length - k < n →
      FoldEngine.runF isString fold [42] s n ⟨1, k, some (1, k), none, 0, 0, none⟩ =
        some (MRes.ok true) := by
  intro n
  induction n with
  | zero => intro k hk hn; omega
  | succ m ih =>
    intro k hk hn
    rw [FoldEngine.runF]
    by_cases hks : k = s.length
    · subst hks
      have hstep : FoldEngine.stepF isString fold [42] s
          ⟨1, s.length, some (1, s.length), none, 0, 0, none⟩ = .done (.ok true) := by
        unfold FoldEngine.stepF
        rw [if_pos (by dsimp only; simp)]
      rw [hstep]
    · have hk2 : k < s.length := by omega
      have hstep : FoldEngine.stepF isString fold [42] s ⟨1, k, some (1, k), none, 0, 0, none⟩ =
          .next ⟨1, k + 1, some (1, k + 1), none, 0, 0, none⟩ := by
        unfold FoldEngine.stepF
        rw [if_neg (by dsimp only; simp; omega), if_neg (by dsimp only; simp),
            if_neg (by dsimp only; simp), if_neg hks, if_neg (by dsimp only; simp),
            if_neg (by dsimp only; simp), if_neg (by dsimp only; simp),
            if_neg (by dsimp only; simp)]
        unfold FoldEngine.backtrackF FoldEngine.starBacktrackF
        dsimp only
        rw [if_pos hk2]
      rw [hstep]
      exact ih (k + 1) (by omega) (by omega)

/-! ## One-step evaluation lemmas for small symbolic runs -/

/-- When the pattern is exhausted (and non-empty), the subject is not, and
no checkpoint is set, the loop gives up with a non-match. -/
theorem stepA_tail_nomatch (isString : Bool) (p s : List Nat) (st : MState)
    (hp : st.pIdx = p.length) (hp0 : 0 < p.length) (hs : st.sIdx < s.length)
    (hst : st.star = none) (hq : st.quest = none) :
    AsciiEngine.stepA isString p s st = .done (.ok false) := by
  have h1 : ¬ (st.pIdx ≥ p.length ∧ st.sIdx ≥ s.length) := by omega
  have h2 : ¬ (st.pIdx < p.length ∧ byteAt p st.pIdx = 42) := by omega
  have h3 : ¬ (st.pIdx < p.length ∧ byteAt p st.pIdx = 63) := by omega
  have h4 : ¬ st.sIdx = s.length := by omega
  have h5 : ¬ (st.pIdx < p.length ∧ byteAt p st.pIdx = 92) := by omega
  have h6 : ¬ (st.pIdx < p.length ∧ byteAt p st.pIdx = 46) := by omega
  have h7 : ¬ (st.pIdx < p.length ∧ byteAt p st.pIdx = 91) := by omega
  have h8 : ¬ (st.pIdx < p.length ∧ st.sIdx < s.length) := by omega
  unfold AsciiEngine.stepA
  rw [if_neg h1, if_neg h2, if_neg h3, if_neg h4, if_neg h5, if_neg h6, if_neg h7, if_neg h8]
  unfold AsciiEngine.backtrackA AsciiEngine.starBacktrackA
  rw [hq, hst]

theorem stepF_tail_nomatch (isString fold : Bool) (p s : List Nat) (st : MState)
    (hp : st.pIdx = p.length) (hp0 : 0 < p.length) (hs : st.sIdx < s.length)
    (hst : st.star = none) (hq : st.quest = none) :
    FoldEngine.stepF isString fold p s st = .done (.ok false) := by
  have g1 : ¬ (st.pIdx ≥ p.length ∧ st.sIdx ≥ s.length) := by omega
  have g2 : ¬ (st.pIdx < p.length ∧ byteAt p st.pIdx = 42) := by omega
  have g3 : ¬ (st.pIdx < p.length ∧ byteAt p st.pIdx = 63) := by omega
  have g4 : ¬ st.sIdx = s.length := by omega
  have g5 : ¬ (st.pIdx < p.length ∧ byteAt p st.pIdx = 92) := by omega
  have g6 : ¬ (st.pIdx < p.length ∧ byteAt p st.pIdx = 46) := by omega
  have g7 : ¬ (st.pIdx < p.length ∧ byteAt p st.pIdx = 91) := by omega
  have g8 : ¬ (st.pIdx < p.length ∧ st.sIdx < s.length) := by omega
  unfold FoldEngine.stepF
  rw [if_neg g1, if_neg g2, if_neg g3, if_neg g4, if_neg g5, if_neg g6, if_neg g7, if_neg g8]
  unfold FoldEngine.backtrackF FoldEngine.starBacktrackF
  rw [hq, hst]

/-! ## The unterminated class pattern evaluated against every subject -/

/-- On the unterminated-class pattern the engine surfaces the parse error
exactly when a subject codepoint is available to test against the class;
on an exhausted subject the mismatch path runs first and the call is
coerced to a plain non-match. -/
theorem Match_unterminated (s : List Nat) :
    Match [91, 97] s = if s = [] then some (MRes.ok false) else some MRes.err := by
  cases s with
  | nil => decide
  | cons b t =>
    rw [if_neg (by simp)]
    show MatchInternal true [91, 97] (b :: t) = _
    unfold MatchInternal
    obtain ⟨m, hm⟩ : ∃ m, Fuel [91, 97] (b :: t) = m + 1 :=
      ⟨Fuel [91, 97] (b :: t) - 1, by have := Fuel_pos [91, 97] (b :: t); omega⟩
    rw [hm, AsciiEngine.runA]
    have hstep : AsciiEngine.stepA true [91, 97] (b :: t) initState = .done .err := by
      unfold AsciiEngine.stepA initState
      rw [if_neg (by dsimp only; simp), if_neg (by decide), if_neg (by decide),
          if_neg (by dsimp only; simp), if_neg (by decide), if_neg (by decide),
          if_pos (by decide)]
      rfl
    rw [hstep]

/-- The same fold-engine evaluation. -/
theorem MatchFold_unterminated (s : List Nat) :
    MatchFold [91, 97] s = if s = [] then some (MRes.ok false) else some MRes.err := by
  cases s with
  | nil => decide
  | cons b t =>
    rw [if_neg (by simp)]
    show MatchInternalFold true [91, 97] (b :: t) true = _
    unfold MatchInternalFold
    obtain ⟨m, hm⟩ : ∃ m, Fuel [91, 97] (b :: t) = m + 1 :=
      ⟨Fuel [91, 97] (b :: t) - 1, by have := Fuel_pos [91, 97] (b :: t); omega⟩
    rw [hm, FoldEngine.runF]
    have hstep : FoldEngine.stepF true true [91, 97] (b :: t) initState = .done .err := by
      unfold FoldEngine.stepF initState
      rw [if_neg (by dsimp only; simp), if_neg (by decide), if_neg (by decide),
          if_neg (by dsimp only; simp), if_neg (by decide), if_neg (by decide),
          if_pos (by decide)]
      rfl
    rw [hstep]

/-! ## The lone-backslash pattern evaluated against every subject -/

theorem Match_backslash (s : List Nat) :
    Match [92] s = if s = [92] then some (MRes.ok true) else some (MRes.ok false) := by
  cases s with
  | nil => decide
  | cons b t =>
    show MatchInternal true [92] (b :: t) = _
    unfold MatchInternal
    obtain ⟨m, hm⟩ : ∃ m, Fuel [92] (b :: t) = m + 2 :=
      ⟨Fuel [92] (b :: t) - 2, by have := Fuel_big [92] (b :: t); simp at this; omega⟩
    rw [hm]
    by_cases hb : b = 92
    · subst hb
      have hstep : AsciiEngine.stepA true [92] (92 :: t) initState =
          .next ⟨1, 1, none, none, 0, 0, none⟩ := by
        unfold AsciiEngine.stepA initState
        rw [if_neg (by dsimp only; simp), if_neg (by decide), if_neg (by decide),
            if_neg (by dsimp only; simp), if_pos (by decide), if_pos (by decide),
            if_pos (by dsimp only; simp [byteAt])]
      have hred : AsciiEngine.runA true [92] (92 :: t) (m + 2) initState =
          AsciiEngine.runA true [92] (92 :: t) (m + 1) ⟨1, 1, none, none, 0, 0, none⟩ := by
        rw [AsciiEngine.runA, hstep]
      rw [hred]
      cases t with
      | nil =>
        rw [if_pos rfl, AsciiEngine.runA]
        have hstep2 : AsciiEngine.stepA true [92] [92] ⟨1, 1, none, none, 0, 0, none⟩ =
            .done (.ok true) := by decide
        rw [hstep2]
      | cons c u =>
        rw [if_neg (by simp), AsciiEngine.runA]
        rw [stepA_tail_nomatch true [92] (92 :: c :: u) ⟨1, 1, none, none, 0, 0, none⟩
          (by simp) (by simp) (by simp) rfl rfl]
    · rw [if_neg (by simp [hb]), AsciiEngine.runA]
      have hstep : AsciiEngine.stepA true [92] (b :: t) initState = .done (.ok false) := by
        unfold AsciiEngine.stepA initState
        rw [if_neg (by dsimp only; simp), if_neg (by decide), if_neg (by decide),
            if_neg (by dsimp only; simp), if_pos (by decide), if_pos (by decide),
            if_neg (by dsimp only; simp [byteAt]; omega)]
        rfl
      rw [hstep]

theorem MatchFold_backslash (s : List Nat) :
    MatchFold [92] s = if s = [92] then some (MRes.ok true) else some (MRes.ok false) := by
  cases s with
  | nil => decide
  | cons b t =>
    show MatchInternalFold true [92] (b :: t) true = _
    unfold MatchInternalFold
    obtain ⟨m, hm⟩ : ∃ m, Fuel [92] (b :: t) = m + 2 :=
      ⟨Fuel [92] (b :: t) - 2, by have := Fuel_big [92] (b :: t); simp at this; omega⟩
    rw [hm]
    by_cases hb : b = 92
    · subst hb
      have hstep : FoldEngine.stepF true true [92] (92 :: t) initState =
          .next ⟨1, 1, none, none, 0, 0, none⟩ := by
        unfold FoldEngine.stepF initState
        rw [if_neg (by dsimp only; simp), if_neg (by decide), if_neg (by decide),
            if_neg (by dsimp only; simp), if_pos (by decide), if_pos (by decide),
            if_pos (by dsimp only; simp)]
        dsimp only
        simp only [pickDecode_eq, List.drop_zero,
          utf8DecodeRune_ascii 92 t (by norm_num)]
        rw [if_pos trivial]
      have hred : FoldEngine.runF true true [92] (92 :: t) (m + 2) initState =
          FoldEngine.runF true true [92] (92 :: t) (m + 1) ⟨1, 1, none, none, 0, 0, none⟩ := by
        rw [FoldEngine.runF, hstep]
      rw [hred]
      cases t with
      | nil =>
        rw [if_pos rfl, FoldEngine.runF]
        have hstep2 : FoldEngine.stepF true true [92] [92] ⟨1, 1, none, none, 0, 0, none⟩ =
            .done (.ok true) := by decide
        rw [hstep2]
      | cons c u =>
        rw [if_neg (by simp), FoldEngine.runF]
        rw [stepF_tail_nomatch true true [92] (92 :: c :: u) ⟨1, 1, none, none, 0, 0, none⟩
          (by simp) (by simp) (by simp) rfl rfl]
    · rw [if_neg (by simp [hb]), FoldEngine.runF]
      have hrune : (pickDecode true ((b :: t).drop 0)).1 ≠ 92 := by
        simp only [pickDecode_eq, List.drop_zero]
        by_cases hlt : b < 0x80
        · rw [utf8DecodeRune_ascii b t hlt]
          simpa using hb
        · have := utf8DecodeRune_nonascii_ge b t (by omega)
          omega
      have hstep : FoldEngine.stepF true true [92] (b :: t) initState = .done (.ok false) := by
        unfold FoldEngine.stepF initState
        rw [if_neg (by dsimp only; simp), if_neg (by decide), if_neg (by decide),
            if_neg (by dsimp only; simp), if_pos (by decide), if_pos (by decide),
            if_pos (by dsimp only; simp)]
        dsimp only
        rw [if_neg hrune]
        rfl
      rw [hstep]

/-! ## Rejection of bracket expressions with no closing bracket -/

theorem asciiParseBody_no_close (p : List Nat) (pi : Nat)
    (hno : ∀ j, j < p.length → pi ≤ j → byteAt p j ≠ 93) :
    ∀ (fuel pi0 : Nat) (f : Bool) (cc : AsciiEngine.CharClass), pi ≤ pi0 →
      AsciiEngine.parseClassBody p fuel pi0 f cc = none := by
  intro fuel
  induction fuel with
  | zero => intro pi0 f cc h; rfl
  | succ n ih =>
    intro pi0 f cc hle
    rw [AsciiEngine.parseClassBody]
    split
    · rename_i hpi
      rw [if_neg (by intro hcon; exact hno pi0 hpi hle hcon.1)]
      split
      · split
        · cases htail : AsciiEngine.parseClassTail p (pi0 + 2) (byteAt p (pi0 + 1)) cc with
          | none => rfl
          | some pr =>
            obtain ⟨cc2, pi2⟩ := pr
            dsimp only
            have := asciiParseTail_bounds p (pi0 + 2) _ _ _ _ htail
            exact ih pi2 false cc2 (by omega)
        · rfl
      · cases htail : AsciiEngine.parseClassTail p (pi0 + 1) (byteAt p pi0) cc with
        | none => rfl
        | some pr =>
          obtain ⟨cc2, pi2⟩ := pr
          dsimp only
          have := asciiParseTail_bounds p (pi0 + 1) _ _ _ _ htail
          exact ih pi2 false cc2 (by omega)
    · rfl

/-- A bracket expression with no closing `]` anywhere at or after the
opening position is always rejected by the ASCII class parser. -/
theorem NewCharClass_no_close (p : List Nat) (pi : Nat)
    (hno : ∀ j, j < p.length → pi ≤ j → byteAt p j ≠ 93) :
    AsciiEngine.NewCharClass p pi = none := by
  unfold AsciiEngine.NewCharClass
  split
  · rfl
  · split
    · rfl
    · split
      · split
        · rfl
        · exact asciiParseBody_no_close p pi hno _ (pi + 2) true _ (by omega)
      · exact asciiParseBody_no_close p pi hno _ (pi + 1) true _ (by omega)

/-! ## The claim theorems -/

/-- C1: the spec's exact-count contract for `?` does not hold; the engine
implements zero-or-one.  `Match("?", "")` evaluates to `Ok(true)` (the
question checkpoint tries the zero-width interpretation first), while the
one- and two-character evaluations agree with the claim. -/
theorem C1_question_zero_or_one :
    Match [63] [] = some (MRes.ok true) ∧
    Match [63] [97] = some (MRes.ok true) ∧
    Match [63] [97, 98] = some (MRes.ok false) := by
  decide

/-- C1 counterexample: the claimed `Match("?", "") = Ok(false)` is refuted —
the engine returns `Ok(true)` on the empty subject. -/
theorem C1_empty_subject_matches :
    Match [63] [] = some (MRes.ok true) := by
  decide

/-- C2: what the code actually does with `.` — only the newline byte is
excluded.  `Match(".", " ")` and `MatchFold(".", " ")` evaluate to
`Ok(true)`, contradicting the claimed whitespace exclusion (which the
repository's own tests demand); `Match(".", "a")` is `Ok(true)` and
`Match(".", "\n")` is `Ok(false)` as claimed. -/
theorem C2_dot_excludes_newline_only :
    Match [46] [32] = some (MRes.ok true) ∧
    MatchFold [46] [32] = some (MRes.ok true) ∧
    Match [46] [97] = some (MRes.ok true) ∧
    Match [46] [10] = some (MRes.ok false) := by
  decide

/-- C3: a malformed bracket expression is surfaced as an error only when a
subject codepoint is available to evaluate the class against: on the
unterminated-class pattern `"[a"` every non-empty subject yields
`Err(MalformedPattern)`, but the empty subject is coerced to `Ok(false)`,
and a mismatch of an earlier pattern token likewise returns `Ok(false)`
without ever parsing the class (shown for both engines). -/
theorem C3_malformed_error_surfacing :
    (∀ s, Match [91, 97] s = if s = [] then some (MRes.ok false) else some MRes.err) ∧
    (∀ s, MatchFold [91, 97] s = if s = [] then some (MRes.ok false) else some MRes.err) ∧
    Match [120, 91, 97] [121] = some (MRes.ok false) ∧
    MatchFold [120, 91, 97] [121] = some (MRes.ok false) :=
  ⟨Match_unterminated, MatchFold_unterminated, by decide, by decide⟩

/-- C3 counterexample: the claimed unconditional `Err(MalformedPattern)` is
refuted — on the exhausted subject the unterminated class of `"[a"` is
silently coerced to `Ok(false)` by both engines. -/
theorem C3_exhausted_subject_coerced :
    Match [91, 97] [] = some (MRes.ok false) ∧
    MatchFold [91, 97] [] = some (MRes.ok false) := by
  decide

/-- C4: subject advancement is not uniformly whole-codepoint.  The ASCII
engine behind `Match` steps bytewise, so `Match("?", "é")` is `Ok(false)`
(the two UTF-8 bytes of `é` are not one `?` step) while
`MatchFold("?", "é")` is `Ok(true)`; and the fold engine's star-checkpoint
replay advances one raw byte, so `MatchFold("*\uFFFD", "é")` is `Ok(true)`
— the replay lands inside the two-byte codepoint and the resulting decode
of the dangling continuation byte yields `U+FFFD`. -/
theorem C4_byte_granular_advancement :
    Match [63] [0xC3, 0xA9] = some (MRes.ok false) ∧
    MatchFold [63] [0xC3, 0xA9] = some (MRes.ok true) ∧
    MatchFold [42, 0xEF, 0xBF, 0xBD] [0xC3, 0xA9] = some (MRes.ok true) := by
  decide

/-- C4 counterexample: the claimed whole-codepoint replay is refuted — the
star replay of `MatchFold("*\uFFFD", "é")` splits the two-byte codepoint
`é` and accepts, which whole-codepoint advancement would reject. -/
theorem C4_star_replay_splits_codepoint :
    MatchFold [42, 0xEF, 0xBF, 0xBD] [0xC3, 0xA9] = some (MRes.ok true) := by
  decide

/-- C5: character classes are always case-sensitive: the membership test
`MatchesWithFold` gives the same verdict whatever its fold flag is, and the
two cited evaluations hold: `MatchFold("[a-z]bc", "Abc")` is `Ok(false)`
while `MatchFold("ABC", "abc")` is `Ok(true)`. -/
theorem C5_classes_case_sensitive :
    (∀ (cc : FoldEngine.CharClass) (char : Nat) (f1 f2 : Bool),
      cc.MatchesWithFold char f1 = cc.MatchesWithFold char f2) ∧
    MatchFold [91, 97, 45, 122, 93, 98, 99] [65, 98, 99] = some (MRes.ok false) ∧
    MatchFold [65, 66, 67] [97, 98, 99] = some (MRes.ok true) :=
  ⟨fun _ _ _ _ => rfl, by decide, by decide⟩

/-- C6: universality of `*` — both engines accept every subject against the
single-star pattern, including the empty subject (the evaluation of either
engine on arbitrary byte content covers multi-codepoint Unicode text, whose
UTF-8 bytes are a particular case of an arbitrary subject). -/
theorem C6_star_universal (s : List Nat) :
    Match [42] s = some (MRes.ok true) ∧ MatchFold [42] s = some (MRes.ok true) := by
  constructor
  · show MatchInternal true [42] s = _
    unfold MatchInternal
    obtain ⟨m, hm⟩ : ∃ m, Fuel [42] s = m + 1 :=
      ⟨Fuel [42] s - 1, by have := Fuel_pos [42] s; omega⟩
    have hstep : AsciiEngine.stepA true [42] s initState =
        .next ⟨1, 0, some (1, 0), none, 0, 0, none⟩ := by
      unfold AsciiEngine.stepA initState
      rw [if_neg (by dsimp only; simp), if_pos (by decide)]
      rfl
    have hred : AsciiEngine.runA true [42] s (m + 1) initState =
        AsciiEngine.runA true [42] s m ⟨1, 0, some (1, 0), none, 0, 0, none⟩ := by
      rw [AsciiEngine.runA, hstep]
    rw [hm, hred]
    exact runA_star true s m 0 (by omega) (by have := Fuel_big [42] s; omega)
  · show MatchInternalFold true [42] s true = _
    unfold MatchInternalFold
    obtain ⟨m, hm⟩ : ∃ m, Fuel [42] s = m + 1 :=
      ⟨Fuel [42] s - 1, by have := Fuel_pos [42] s; omega⟩
    have hstep : FoldEngine.stepF true true [42] s initState =
        .next ⟨1, 0, some (1, 0), none, 0, 0, none⟩ := by
      unfold FoldEngine.stepF initState
      rw [if_neg (by dsimp only; simp), if_pos (by decide)]
      rfl
    have hred : FoldEngine.runF true true [42] s (m + 1) initState =
        FoldEngine.runF true true [42] s m ⟨1, 0, some (1, 0), none, 0, 0, none⟩ := by
      rw [FoldEngine.runF, hstep]
    rw [hm, hred]
    exact runF_star true true s m 0 (by omega) (by have := Fuel_big [42] s; omega)

/-- C7: the class parser rejects invalid bracket expressions: any bracket
expression with no closing `]` anywhere at or after the opening position is
rejected by `NewCharClass`, and the inverted range `[z-a]` is surfaced as
`Err(MalformedPattern)` by both entry points. -/
theorem C7_class_rejects_invalid (p : List Nat) (pi : Nat)
    (hno : ∀ j, j < p.length → pi ≤ j → byteAt p j ≠ 93) :
    AsciiEngine.NewCharClass p pi = none ∧
    Match [91, 122, 45, 97, 93] [98] = some MRes.err ∧
    MatchFold [91, 122, 45, 97, 93] [98] = some MRes.err :=
  ⟨NewCharClass_no_close p pi hno, by decide, by decide⟩

/-- C7 witness: the unterminated pattern `"[a"` instantiates the
no-closing-bracket hypothesis at the opening position. -/
theorem C7_class_rejects_invalid_witness :
    (∀ j, j < ([91, 97] : List Nat).length → 0 ≤ j → byteAt [91, 97] j ≠ 93) ∧
    (AsciiEngine.NewCharClass [91, 97] 0 = none ∧
     Match [91, 122, 45, 97, 93] [98] = some MRes.err ∧
     MatchFold [91, 122, 45, 97, 93] [98] = some MRes.err) :=
  ⟨by decide, C7_class_rejects_invalid [91, 97] 0 (by decide)⟩

/-- C8: a pattern ending in a lone unescaped backslash is never a pattern
error: against every subject, both entry points return `Ok`, accepting
exactly the one-byte subject consisting of a literal backslash. -/
theorem C8_trailing_backslash_literal (s : List Nat) :
    (Match [92] s = if s = [92] then some (MRes.ok true) else some (MRes.ok false)) ∧
    (MatchFold [92] s = if s = [92] then some (MRes.ok true) else some (MRes.ok false)) :=
  ⟨Match_backslash s, MatchFold_backslash s⟩

/-- C9: representation invariance — for every pattern and subject the
string-view instantiation and the byte-slice-view instantiation of either
engine return identical results (the two views differ only in which
`Index`/`DecodeRune` library functions they call, which implement the same
algorithm). -/
theorem C9_representation_invariance (p s : List Nat) :
    MatchInternal true p s = MatchInternal false p s ∧
    (∀ fold, MatchInternalFold true p s fold = MatchInternalFold false p s fold) :=
  ⟨runA_repr p s (Fuel p s) initState, fun fold => runF_repr fold p s (Fuel p s) initState⟩

/-- C10: termination — on every pattern and subject both engines reach a
decision: the fuelled runner with the proved fuel bound returns a result,
for both entry points and both representations and fold modes. -/
theorem C10_termination (p s : List Nat) :
    (∃ r, Match p s = some r) ∧ (∃ r, MatchFold p s = some r) ∧
    (∀ isString, ∃ r, MatchInternal isString p s = some r) ∧
    (∀ isString fold, ∃ r, MatchInternalFold isString p s fold = some r) :=
  ⟨MatchInternal_total true p s, MatchInternalFold_total true p s true,
   fun b => MatchInternal_total b p s, fun b f => MatchInternalFold_total b p s f⟩

end Gowild
